import Mathlib

/-!
Verification of the bern-addresses OCR segmentation core.

This file gives a shallow embedding, over `List Char`, of the string
processing functions of `src/split_v2.py`, `src/utils.py` and
`src/validator.py`, together with theorems about them.  Python strings
are modelled as `List Char`; fallible Python code (list indexing,
`s[-1]` on a possibly-empty string, assertions) is modelled with
`Option`.
-/

namespace Bern

/-- The ASCII apostrophe character, written via its code point. -/
def apos : Char := Char.ofNat 39

/-- Python `str.isspace` restricted to the whitespace characters that can
occur in this data: space, tab, newline, carriage return, vertical tab and
form feed. -/
def pySpace (c : Char) : Bool :=
  c == ' ' || c == '\t' || c == '\n' || c == '\r' || c == Char.ofNat 11 || c == Char.ofNat 12

/-- Split a character list at every character satisfying `p`.  With
`p := (· == sep)` this is Python `str.split(sep)` for a one-character
separator (empty pieces kept, result always non-empty). -/
def pySplitP (p : Char → Bool) : List Char → List (List Char)
  | [] => [[]]
  | c :: rest =>
    if p c then [] :: pySplitP p rest
    else
      let rs := pySplitP p rest
      (c :: rs.headD []) :: rs.tail

/-- Python `str.split(sep)` for a one-character separator. -/
def pySplit (sep : Char) (s : List Char) : List (List Char) :=
  pySplitP (· == sep) s

/-- Python `str.split()` with no argument: split on whitespace runs,
discarding empty pieces. -/
def pySplitWS (s : List Char) : List (List Char) :=
  (pySplitP pySpace s).filter (· ≠ [])

/-- Python `str.strip()`: drop leading and trailing whitespace. -/
def pyStrip (s : List Char) : List Char :=
  ((s.dropWhile pySpace).reverse.dropWhile pySpace).reverse

/-- Python `sep.join(xs)`. -/
def pyJoin (sep : List Char) (xs : List (List Char)) : List Char :=
  List.intercalate sep xs

/-- Python substring containment `a in s` (for strings). -/
def pySubstr (a : List Char) : List Char → Bool
  | [] => a.isEmpty
  | c :: rest => a.isPrefixOf (c :: rest) || pySubstr a rest

/-- Python `s.startswith(p)`. -/
def pyStartsWith (s p : List Char) : Bool :=
  p.isPrefixOf s

/-- Python `s.removeprefix(p)`. -/
def pyRemovePrefix (s p : List Char) : List Char :=
  if p.isPrefixOf s then s.drop p.length else s

/-- Python `s.removesuffix(p)`. -/
def pyRemoveSuffix (s p : List Char) : List Char :=
  if p.isSuffixOf s then s.take (s.length - p.length) else s

/-- Workhorse for Python `str.replace(pat, rep)`: replace all
non-overlapping occurrences of `pat`, scanning left to right.  The `fuel`
argument makes the recursion structural; `pyReplace` below instantiates it
with the length of the string, which suffices because every pattern used in
this development is non-empty. -/
def pyReplaceFuel (pat rep : List Char) : Nat → List Char → List Char
  | 0, s => s
  | _ + 1, [] => []
  | fuel + 1, c :: rest =>
    if pat.isPrefixOf (c :: rest) then
      rep ++ pyReplaceFuel pat rep fuel ((c :: rest).drop pat.length)
    else
      c :: pyReplaceFuel pat rep fuel rest

/-- Python `s.replace(pat, rep)` (for the non-empty patterns used here). -/
def pyReplace (s pat rep : List Char) : List Char :=
  pyReplaceFuel pat rep s.length s

/-! ## `cleanup_text` (split_v2.py lines 424-433) -/

/-- The character class `[0-9A-ZÄÖÜ]` of the regex `\.([0-9A-ZÄÖÜ])` in
`cleanup_text`. -/
def dotClass (c : Char) : Bool :=
  c.isDigit || c.isUpper || c == 'Ä' || c == 'Ö' || c == 'Ü'

/-- `re.sub(r"\.([0-9A-ZÄÖÜ])", lambda m: ". " + m.group(1), s)`: insert a
space after a period that is directly followed by a digit, an ASCII capital
letter or Ä/Ö/Ü; scanning resumes after each match. -/
def fixDotSpacing : List Char → List Char
  | [] => []
  | [c] => [c]
  | c₁ :: c₂ :: rest =>
    if c₁ == '.' && dotClass c₂ then '.' :: ' ' :: c₂ :: fixDotSpacing rest
    else c₁ :: fixDotSpacing (c₂ :: rest)

/-- `re.sub(r"([0-9] [a-z][,.]?)", lambda m: m.group(1).replace(" ", ""), s)`:
drop the space in "digit space lowercase-letter".  (The optional `[,.]` of
the original pattern only extends the matched text by a character that is
kept verbatim and that can never start a new match, so consuming it or not
yields the same output.) -/
def fixNumberSuffix : List Char → List Char
  | [] => []
  | [c] => [c]
  | [c₁, c₂] => [c₁, c₂]
  | c₁ :: c₂ :: c₃ :: rest =>
    if c₁.isDigit && c₂ == ' ' && c₃.isLower then c₁ :: c₃ :: fixNumberSuffix rest
    else c₁ :: fixNumberSuffix (c₂ :: c₃ :: rest)

/-- The `REPLACEMENTS` table of `split_v2.py` (lines 39-66), in source
(insertion) order. -/
def REPLACEMENTS : List (List Char × List Char) :=
  [("..".data, ".,".data),
   ([apos], "’".data),
   ("ẵ".data, "ä".data),
   ("å".data, "ä".data),
   ("Bolwerk".data, "Bollwerk".data),
   ("Casinoplag".data, "Casinoplatz".data),
   ("gaffe".data, "gasse".data),
   ("I.".data, "J.".data),
   ("Igfr.".data, "Jgfr.".data),
   ("Inkg.".data, "Jnkg.".data),
   ("Junferng".data, "Junkerng".data),
   ("Käshdir".data, "Käshdlr".data),
   ("Megg".data, "Metzg".data),
   ("Mezg".data, "Metzg".data),
   ("Nabbenth".data, "Rabbenth".data),
   ("Nent".data, "Rent".data),
   ("Nevifor".data, "Revisor".data),
   ("plazg".data, "platzg".data),
   ("plaz ".data, "platz ".data),
   ("plagg".data, "platzg".data),
   ("Räfich".data, "Käfich".data),
   ("Regt.".data, "Negt.".data),
   ("Ressler".data, "Kessler".data),
   ("SchauFlagg".data, "Schauplatzg".data),
   ("Schlsfr".data, "Schlssr".data),
   ("Schweft".data, "Schwest".data)]

/-- `for a, b in REPLACEMENTS.items(): s = s.replace(a, b)`: apply a table
of replacements in order. -/
def applyReplacements (pairs : List (List Char × List Char)) (s : List Char) :
    List Char :=
  pairs.foldl (fun t ab => pyReplace t ab.1 ab.2) s

/-- Step 1 of `cleanup_text`: if the line ends with ":" or "=", replace the
final character with "-". -/
def fixTrailingMark (s : List Char) : List Char :=
  match s.getLast? with
  | some c => if c == ':' || c == '=' then s.dropLast ++ ['-'] else s
  | none => s

/-- `cleanup_text` of split_v2.py.  Returns `none` for the empty string,
on which the Python code raises `IndexError` (it reads `s[-1]`). -/
def cleanup_text (s : List Char) : Option (List Char) :=
  if s.isEmpty then none
  else
    let s₁ := fixTrailingMark s
    let s₂ := pyReplace (pyReplace (pyReplace s₁ ['ſ'] ['s']) ['ß'] ['s', 's']) ['⸗'] ['-']
    let s₃ := fixDotSpacing s₂
    let s₄ := fixNumberSuffix s₃
    some (applyReplacements REPLACEMENTS s₄)

/-! ## Geometry and records (utils.py) -/

/-- `Box` of utils.py: an axis-aligned rectangle in page-pixel coordinates. -/
structure Box where
  x : Int
  y : Int
  width : Int
  height : Int
deriving DecidableEq, Repr

/-- `Box.union` of utils.py (lines 25-35), translated statement by
statement; the second Python assignment line reads the `x1`/`y1` updated by
the first one. -/
def Box.union (b o : Box) : Box :=
  let x1 := min b.x o.x
  let x2 := max (b.x + b.width) (o.x + o.width)
  let y1 := min b.y o.y
  let y2 := max (b.y + b.height) (o.y + o.height)
  let x1' := min x1 x2
  let y1' := min y1 y2
  let x2' := max x1' x2
  let y2' := max y1' y2
  Box.mk x1' y1' (x2' - x1') (y2' - y1')

/-- `OCRLine` of utils.py. -/
structure OCRLine where
  page_id : Int
  column : Int
  text : List Char
  box : Box
deriving DecidableEq, Repr

/-- `AddressBookEntry` of utils.py. -/
structure AddressBookEntry where
  id : Option Int
  page_id : Int
  box : Box
  family_name : List Char
  given_name : List Char
  maiden_name : List Char
  nobility_name : List Char
  title : List Char
  occupations : List (List Char)
  addresses : List (List Char)
  workplace : List Char
  unrecognized : List Char
deriving DecidableEq, Repr

/-- `AddressBookEntry.to_dict` of utils.py (lines 61-90).  List indexing
`xs[i]` is fallible in Python, so the function is `Option`-valued: each
`occ_i`/`addr_i` binding mirrors the corresponding conditional expression
of the source, `none` standing for `IndexError`.  Note that the source
guards `addresses[1]` and `addresses[2]` with `len(self.addresses) >= 1`,
not `>= 2`/`>= 3`.  The `ID` field uses Python truthiness: `None` and `0`
both yield the empty string. -/
def AddressBookEntry.to_dict (e : AddressBookEntry) :
    Option (List (String × List Char)) := do
  let pos := (toString e.box.x).data ++ [','] ++ (toString e.box.y).data ++ [','] ++
    (toString e.box.width).data ++ [','] ++ (toString e.box.height).data
  let occ_1 ← if e.occupations.length ≥ 1 then e.occupations[0]? else some []
  let occ_2 ← if e.occupations.length ≥ 2 then e.occupations[1]? else some []
  let occ_3 ← if e.occupations.length ≥ 3 then e.occupations[2]? else some []
  let addr_1 ← if e.addresses.length ≥ 1 then e.addresses[0]? else some []
  let addr_2 ← if e.addresses.length ≥ 1 then e.addresses[1]? else some []
  let addr_3 ← if e.addresses.length ≥ 1 then e.addresses[2]? else some []
  let idStr :=
    match e.id with
    | some n => if n ≠ 0 then "BAE-".data ++ (toString n).data else []
    | none => []
  some [("ID", idStr),
        ("Scan", (toString e.page_id).data),
        ("Position", pos),
        ("Name", e.family_name),
        ("Vorname", e.given_name),
        ("Ledigname", e.maiden_name),
        ("Adelsname", e.nobility_name),
        ("Titel", e.title),
        ("Beruf", occ_1),
        ("Beruf 2", occ_2),
        ("Beruf 3", occ_3),
        ("Adresse", addr_1),
        ("Adresse 2", addr_2),
        ("Adresse 3", addr_3),
        ("Arbeitsort", e.workplace),
        ("nicht zuweisbar", e.unrecognized)]

/-! ## `merge_lines` (split_v2.py lines 390-421) -/

/-- `re.match(r"^[A-Z]\.$", t)`: the stray split-off initial pattern. -/
def isStrayInitial (t : List Char) : Bool :=
  match t with
  | [c₁, c₂] => c₁.isUpper && c₂ == '.'
  | _ => false

/-- One iteration of the loop body of `merge_lines`.  The `getLast? = none`
branch is unreachable: the loop only reaches it when `result` is
non-empty. -/
def mergeStep (column_x : Int) (result : List OCRLine) (line : OCRLine) :
    Option (List OCRLine) := do
  let x := line.box.x - column_x
  let text ← cleanup_text line.text
  if x > 200 ∧ isStrayInitial line.text then
    pure result
  else if x < 70 ∨ result.isEmpty then
    pure (result ++ [OCRLine.mk line.page_id line.column text line.box])
  else
    match result.getLast? with
    | none => pure result
    | some last =>
      let sep : List Char :=
        if pyStartsWith text "und".data ∨ pyStartsWith text "u.".data then [' '] else []
      let newText :=
        if last.text.getLast? = some '⸗' ∨ last.text.getLast? = some '-' ∨
            last.text.getLast? = some '=' then
          last.text.dropLast ++ sep ++ text
        else
          pyJoin [' '] (pySplitWS (last.text ++ [' '] ++ text))
      let box := last.box.union line.box
      pure (result.dropLast ++ [OCRLine.mk line.page_id line.column newText box])

/-- `merge_lines` of split_v2.py.  The two `assert` statements become a
guard returning `none` (`AssertionError`); a cleanup failure on an empty
text is propagated by `mergeStep`. -/
def merge_lines (lines : List OCRLine) : Option (List OCRLine) :=
  match lines with
  | [] => some []
  | l₀ :: _ =>
    if lines.all (fun l => l.page_id == l₀.page_id) &&
        lines.all (fun l => l.column == l₀.column) then
      let column_x := (lines.map (fun l => l.box.x)).foldl min l₀.box.x
      lines.foldlM (mergeStep column_x) []
    else none

/-- If the line's text cleans up successfully, the line is not a discarded
stray initial, and it sits at the column margin (or the accumulator is
empty), the loop body appends a fresh cleaned line. -/
theorem mergeStep_append (column_x : Int) (res : List OCRLine) (line : OCRLine)
    (c : List Char) (ht : cleanup_text line.text = some c)
    (hd : ¬(line.box.x - column_x > 200 ∧ isStrayInitial line.text = true))
    (hnew : line.box.x - column_x < 70 ∨ res.isEmpty = true) :
    mergeStep column_x res line =
      some (res ++ [OCRLine.mk line.page_id line.column c line.box]) := by
  unfold mergeStep
  rw [ht]
  simp only [Option.bind_eq_bind, Option.some_bind]
  rw [if_neg hd, if_pos hnew]
  rfl

/-- If the line is indented (and not a discarded stray initial), and the
text of the last accumulated line ends in a hyphenation glyph while the
cleaned new text does not start with "und"/"u.", the loop body merges the
new fragment into the last line without a space, dropping the glyph and
taking the union of the boxes. -/
theorem mergeStep_hyphen (column_x : Int) (res : List OCRLine) (last line : OCRLine)
    (c : List Char) (ht : cleanup_text line.text = some c)
    (hd : ¬(line.box.x - column_x > 200 ∧ isStrayInitial line.text = true))
    (hold : ¬(line.box.x - column_x < 70 ∨ res.isEmpty = true))
    (hlast : res.getLast? = some last)
    (hhyph : last.text.getLast? = some '⸗' ∨ last.text.getLast? = some '-' ∨
      last.text.getLast? = some '=')
    (hund : ¬(pyStartsWith c "und".data = true ∨ pyStartsWith c "u.".data = true)) :
    mergeStep column_x res line =
      some (res.dropLast ++
        [OCRLine.mk line.page_id line.column (last.text.dropLast ++ c)
          (last.box.union line.box)]) := by
  unfold mergeStep
  rw [ht]
  simp only [Option.bind_eq_bind, Option.some_bind]
  rw [if_neg hd, if_neg hold, hlast]
  simp [if_pos hhyph, if_neg hund]

/-- C2 (counterexample): two fragments of the same page and column at the
same x are NOT merged by `merge_lines`, even though the first one's cleaned
text ends in a hyphenation marker: the second fragment has horizontal
offset 0 (< 70), so it starts a new logical entry, and the output has two
lines rather than the single claimed merged line. -/
theorem merge_lines_same_x_two_fragments :
    merge_lines
        [OCRLine.mk 1 1 "Stra-".data (Box.mk 100 0 50 10),
         OCRLine.mk 1 1 "sse".data (Box.mk 100 20 50 10)] =
      some [OCRLine.mk 1 1 "Stra-".data (Box.mk 100 0 50 10),
            OCRLine.mk 1 1 "sse".data (Box.mk 100 20 50 10)] ∧
    (merge_lines
        [OCRLine.mk 1 1 "Stra-".data (Box.mk 100 0 50 10),
         OCRLine.mk 1 1 "sse".data (Box.mk 100 20 50 10)]).map List.length =
      some 2 := by
  constructor <;> rfl

/-- C2 (amended): for two OCRLine fragments of the same page and column
where the second is INDENTED by at least the 70px threshold relative to
the first (which sits at the column margin), is not a discarded stray
initial, and where the first fragment's cleaned text ends in a hyphenation
marker and the second's cleaned text does not trigger the "und"/"u."
conjunction space, `merge_lines` returns a single OCRLine whose text is
the direct no-space concatenation of the two cleaned texts with the
trailing marker stripped, and whose box is the union of both input
boxes. -/
theorem merge_lines_hyphen_continuation (p col : Int) (t₁ t₂ c₁ c₂ : List Char)
    (b₁ b₂ : Box)
    (h₁ : cleanup_text t₁ = some c₁) (h₂ : cleanup_text t₂ = some c₂)
    (hx : b₁.x ≤ b₂.x) (hind : 70 ≤ b₂.x - b₁.x)
    (hstray : ¬(b₂.x - b₁.x > 200 ∧ isStrayInitial t₂ = true))
    (hhyph : c₁.getLast? = some '⸗' ∨ c₁.getLast? = some '-' ∨
      c₁.getLast? = some '=')
    (hund : ¬(pyStartsWith c₂ "und".data = true ∨ pyStartsWith c₂ "u.".data = true)) :
    merge_lines [OCRLine.mk p col t₁ b₁, OCRLine.mk p col t₂ b₂] =
      some [OCRLine.mk p col (c₁.dropLast ++ c₂) (b₁.union b₂)] := by
  have hcx : (List.map (fun l => l.box.x)
      [OCRLine.mk p col t₁ b₁, OCRLine.mk p col t₂ b₂]).foldl min
        (OCRLine.mk p col t₁ b₁).box.x = b₁.x := by
    simp [min_self, min_eq_left hx]
  unfold merge_lines
  simp only [List.all_cons, List.all_nil, beq_self_eq_true, Bool.and_self,
    Bool.and_true, if_true, hcx]
  have e₁ : mergeStep b₁.x [] (OCRLine.mk p col t₁ b₁) =
      some [OCRLine.mk p col c₁ b₁] := by
    have := mergeStep_append b₁.x [] (OCRLine.mk p col t₁ b₁) c₁ h₁
      (by simp) (by simp)
    simpa using this
  have e₂ : mergeStep b₁.x [OCRLine.mk p col c₁ b₁] (OCRLine.mk p col t₂ b₂) =
      some [OCRLine.mk p col (c₁.dropLast ++ c₂) (b₁.union b₂)] := by
    have := mergeStep_hyphen b₁.x [OCRLine.mk p col c₁ b₁]
      (OCRLine.mk p col c₁ b₁) (OCRLine.mk p col t₂ b₂) c₂ h₂ hstray
      (by simp; omega) (by simp) hhyph hund
    simpa using this
  simp [List.foldlM, e₁, e₂]

/-- C2 (witness for the amended theorem): a concrete indented continuation
fragment, 80px to the right of the column margin, is merged into
"Strasse" with the union box. -/
theorem merge_lines_hyphen_continuation_witness :
    cleanup_text "Stra-".data = some "Stra-".data ∧
    cleanup_text "sse".data = some "sse".data ∧
    (70 : Int) ≤ 180 - 100 ∧
    merge_lines
        [OCRLine.mk 1 1 "Stra-".data (Box.mk 100 0 50 10),
         OCRLine.mk 1 1 "sse".data (Box.mk 180 20 50 10)] =
      some [OCRLine.mk 1 1 "Strasse".data (Box.mk 100 0 130 30)] :=
  ⟨rfl, rfl, by decide,
    merge_lines_hyphen_continuation 1 1 "Stra-".data "sse".data "Stra-".data
      "sse".data (Box.mk 100 0 50 10) (Box.mk 180 20 50 10) rfl rfl
      (by decide) (by decide) (by decide) (by decide) (by decide)⟩

/-- C1 (evidence of the defect): on an entry whose addresses list has
length one, `to_dict` does not return the fixed column set with empty
strings for the absent `Adresse 2`/`Adresse 3`; it raises `IndexError`
(modelled as `none`), because the source guards `addresses[1]` and
`addresses[2]` with `len(self.addresses) >= 1`. -/
theorem to_dict_raises_on_single_address :
    (AddressBookEntry.mk (some 42) 1 (Box.mk 0 0 10 10) "Meier".data [] [] [] []
      [] ["A-Str. 1".data] [] []).to_dict = none ∧
    (AddressBookEntry.mk (some 42) 1 (Box.mk 0 0 10 10) "Meier".data [] [] [] []
      [] [] [] []).to_dict ≠ none := by
  constructor <;> decide

/-! ## The field splitter (split_v2.py, class Splitter) -/

/-- `NOBILITY_PREFIXES` of split_v2.py (lines 98-105). -/
def NOBILITY_PREFIXES : List (List Char × List Char) :=
  [("de".data, "de".data),
   ("De".data, "de".data),
   ("von".data, "von".data),
   ("Von".data, "von".data),
   ("v.".data, "von".data),
   ("V.".data, "von".data)]

/-- `COMPANY_ABBREVS` of split_v2.py (lines 69-87).  The Python object is a
`set`, iterated in unspecified order, but no abbreviation is a prefix of
another, so at most one can match a given text and the order is
irrelevant. -/
def COMPANY_ABBREVS : List (List Char) :=
  ["AG".data, "A.-G.".data, "Cie.".data, "Co.".data, "Comp.".data,
   "Compagnie".data, "Gebr.".data, "Gebrüder".data, "Gebrüd.".data,
   "& Cie.".data, "& Co.".data, "& Comp.".data, "& Cp.".data, "& Sohn".data,
   "& Söhne".data, "u. Cie.".data, "u. Comp.".data]

/-- `MAIDEN_NAME_PREFIXES` of split_v2.py (lines 90-95), a set used only
through membership-like `startswith` tests. -/
def MAIDEN_NAME_PREFIXES : List (List Char) :=
  ["geb.".data, "gb.".data, "geborne".data, "geborene".data]

/-- The reference tables a `Splitter` reads from its `Validator`: the
`titles` list is iterated in order, the others are used through key
membership only. -/
structure SplitterTables where
  titles : List (List Char)
  given_names : List (List Char)
  occupations : List (List Char)
  streets : List (List Char)
  street_abbrevs : List (List Char)
  pois : List (List Char)

/-- `Splitter.split_name` (split_v2.py lines 166-181).  `words[0]` and
`words[pos]` are fallible list indexings, hence the `Option`.  Note that
the dash test `name in "-–—"` is a Python substring test on the
three-character string. -/
def split_name (text : List Char) : Option (List Char × List Char) := do
  let p := pySplit ',' text
  let n := pyReplace (pyReplace (p.headD []) " -".data "-".data) "- ".data "-".data
  let words := pySplitWS n
  let w₀ ← words[0]?
  let pos : Nat := if (NOBILITY_PREFIXES.lookup w₀).isSome then 1 else 0
  let wpos ← words[pos]?
  let pos := if NOBILITY_PREFIXES.any (fun kv => (['-'] ++ kv.1).isSuffixOf wpos)
    then pos + 1 else pos
  let words := words.set 0 ((NOBILITY_PREFIXES.lookup w₀).getD w₀)
  let name := pyJoin [' '] (words.take (pos + 1))
  let name := if pySubstr name "-–—".data then "—".data else name
  let rest_list := [pyJoin [' '] (words.drop (pos + 1))] ++ p.tail
  let rest := pyJoin ", ".data ((rest_list.filter (fun rp => rp ≠ [])).map pyStrip)
  some (name, rest)

/-- `Splitter.split_company` (split_v2.py lines 183-190). -/
def split_company (name rest : List Char) : (List Char × List Char) :=
  match COMPANY_ABBREVS.find? (fun a => pyStartsWith rest a) with
  | some a =>
    (name ++ [' '] ++ a, pyStrip (pyRemovePrefix (pyRemovePrefix rest a) [',']))
  | none => ([], rest)

/-- `Splitter.split_maiden_name` (split_v2.py lines 192-203).  `words[0]`
is a fallible indexing (`IndexError` when nothing follows the maiden-name
marker in the first comma field). -/
def split_maiden_name (text : List Char) : Option (List Char × List Char) :=
  if ¬ MAIDEN_NAME_PREFIXES.any (fun p => pyStartsWith text p) then
    some ([], text)
  else do
    let parts := pySplit ',' text
    let words := (pySplitWS (parts.headD [])).tail
    let w₀ ← words[0]?
    let mr : List Char × List (List Char) :=
      if words.length ≥ 2 then
        match NOBILITY_PREFIXES.lookup w₀ with
        | some nob => (nob ++ [' '] ++ words.getD 1 [], words.drop 2)
        | none => (w₀, words.drop 1)
      else (w₀, words.drop 1)
    let pp := if mr.2 ≠ [] then [pyJoin [' '] mr.2] ++ parts.tail else parts.tail
    some (mr.1, pyJoin ", ".data (pp.map pyStrip))

/-- `Splitter.split_title` (split_v2.py lines 205-210): first matching
title in table iteration (insertion) order wins. -/
def split_title (titles : List (List Char)) (text : List Char) :
    (List Char × List Char) :=
  match titles.find? (fun t => pyStartsWith text t) with
  | some t =>
    (t, pyStrip (pyRemovePrefix (pyStrip (pyRemovePrefix text t)) [',']))
  | none => ([], text)

/-- `Splitter.split_given_name` (split_v2.py lines 212-217). -/
def split_given_name (given_names : List (List Char)) (text : List Char) :
    (List Char × List Char) :=
  let parts := (pySplit ',' text).map pyStrip
  if parts.length > 0 ∧
      (pySplitWS (parts.headD [])).all (fun n => given_names.contains n) then
    (parts.headD [], pyJoin ", ".data parts.tail)
  else ([], text)

/-- `re.match(r"(.+) (u\.|und) (.+)", p)` in `split_occupations`, returning
the first and third groups.  The greedy `(.+)` group takes the longest
possible text, so the split is at the last space whose tail matches
`(u\.|und) (.+)`; the alternatives `u.` and `und` are mutually exclusive. -/
def matchUndSplit (p : List Char) : Option (List Char × List Char) :=
  (List.range p.length).reverse.findSome? fun k =>
    if 1 ≤ k ∧ p[k]? = some ' ' then
      let tail := p.drop (k + 1)
      let after? : Option (List Char) :=
        if pyStartsWith tail "u.".data then some (tail.drop 2)
        else if pyStartsWith tail "und".data then some (tail.drop 3)
        else none
      after?.bind fun after =>
        match after with
        | ' ' :: (q :: rest) => some (p.take k, q :: rest)
        | _ => none
    else none

/-- `Splitter.split_occupations` (split_v2.py lines 219-239). -/
def split_occupations (occupations : List (List Char)) (text : List Char) :
    (List (List Char) × List Char) :=
  let parts := (pySplit ',' text).map pyStrip
  let step := fun (acc : List (List Char) × List (List Char)) (p : List Char) =>
    if occupations.contains p then (acc.1 ++ [p], acc.2)
    else if occupations.contains (p ++ ['.']) then (acc.1 ++ [p ++ ['.']], acc.2)
    else
      match matchUndSplit p with
      | some pp =>
        if occupations.contains pp.1 ∧ occupations.contains pp.2 then
          (acc.1 ++ [pp.1, pp.2], acc.2)
        else (acc.1, acc.2 ++ [p])
      | none => (acc.1, acc.2 ++ [p])
  let fr := parts.foldl step ([], [])
  (fr.1, pyJoin ", ".data fr.2)

/-! ### `Splitter.cleanup_address` and its four regexes
(split_v2.py lines 255-276).  Each regex is translated as a parser whose
backtracking behaviour matches the Python `re` engine on these patterns:
the greedy `(.+)␣` prefix is resolved by trying the latest space first;
inside the tails, `\d+` is forced (a digit cannot continue any following
element), `[a-t]?` is forced (no following element can start with a letter
in a-t, and in particular not with "u"), `\s?` is forced (neither "u."
nor "und" starts with whitespace), and the alternatives `u.`/`und` are
mutually exclusive.  The inputs are single comma-free OCR text segments,
which never contain a newline, so `.` is modelled as "any character". -/

/-- Tail `(\d+[a-t]?)\.?$` of regex 1, returning the number group. -/
def matchNumDot (t : List Char) : Option (List Char) :=
  let digits := t.takeWhile Char.isDigit
  let rest := t.dropWhile Char.isDigit
  if digits = [] then none
  else
    match rest with
    | [] => some digits
    | [c] =>
      if 'a' ≤ c ∧ c ≤ 't' then some (digits ++ [c])
      else if c = '.' then some digits else none
    | [c, d] => if ('a' ≤ c ∧ c ≤ 't') ∧ d = '.' then some (digits ++ [c]) else none
    | _ => none

/-- `(\d+[a-t]?)$`, returning the number group. -/
def matchNum (t : List Char) : Option (List Char) :=
  let digits := t.takeWhile Char.isDigit
  let rest := t.dropWhile Char.isDigit
  if digits = [] then none
  else
    match rest with
    | [] => some digits
    | [c] => if 'a' ≤ c ∧ c ≤ 't' then some (digits ++ [c]) else none
    | _ => none

/-- `(\d+[a-t]?)` as a prefix consumer: the group and the remaining text. -/
def consumeNum (t : List Char) : Option (List Char × List Char) :=
  let digits := t.takeWhile Char.isDigit
  let rest := t.dropWhile Char.isDigit
  if digits = [] then none
  else
    match rest with
    | c :: rs =>
      if 'a' ≤ c ∧ c ≤ 't' then some (digits ++ [c], rs) else some (digits, rest)
    | [] => some (digits, [])

/-- `\s?` as a prefix consumer. -/
def consumeOptWs (t : List Char) : List Char :=
  match t with
  | c :: rs => if pySpace c then rs else t
  | [] => t

/-- `(u\.|und)` as a prefix consumer. -/
def consumeUnd (t : List Char) : Option (List Char) :=
  if pyStartsWith t "u.".data then some (t.drop 2)
  else if pyStartsWith t "und".data then some (t.drop 3)
  else none

/-- Regex 1: `^(.+) (\d+[a-t]?)\.?$`, returning (street group, number
group). -/
def re1 (s : List Char) : Option (List Char × List Char) :=
  (List.range s.length).reverse.findSome? fun k =>
    if 1 ≤ k ∧ s[k]? = some ' ' then
      (matchNumDot (s.drop (k + 1))).map fun num => (s.take k, num)
    else none

/-- Tail of regex 2 after the first group's space:
`(\d+[a-t]?)\s?(u\.|und) (\d+[a-t]?)$`. -/
def re2Tail (t : List Char) : Option (List Char × List Char) := do
  let nr ← consumeNum t
  let r ← consumeUnd (consumeOptWs nr.2)
  match r with
  | ' ' :: r' => (matchNum r').map fun num2 => (nr.1, num2)
  | _ => none

/-- Regex 2: `^(.+) (\d+[a-t]?)\s?(u\.|und) (\d+[a-t]?)$`. -/
def re2 (s : List Char) : Option (List Char × List Char × List Char) :=
  (List.range s.length).reverse.findSome? fun k =>
    if 1 ≤ k ∧ s[k]? = some ' ' then
      (re2Tail (s.drop (k + 1))).map fun nn => (s.take k, nn.1, nn.2)
    else none

/-- Tail of regex 3 after the first group's space:
`(\d+[a-t]?)\s?(u\.|und) (.+) (\d+[a-t]?)$`; the inner greedy `(.+)`
is again resolved by trying the latest space first. -/
def re3Tail (t : List Char) : Option (List Char × List Char × List Char) := do
  let nr ← consumeNum t
  let r ← consumeUnd (consumeOptWs nr.2)
  match r with
  | ' ' :: r' =>
    (List.range r'.length).reverse.findSome? fun j =>
      if 1 ≤ j ∧ r'[j]? = some ' ' then
        (matchNum (r'.drop (j + 1))).map fun num2 => (nr.1, r'.take j, num2)
      else none
  | _ => none

/-- Regex 3: `^(.+) (\d+[a-t]?)\s?(u\.|und) (.+) (\d+[a-t]?)$`. -/
def re3 (s : List Char) :
    Option (List Char × List Char × List Char × List Char) :=
  (List.range s.length).reverse.findSome? fun k =>
    if 1 ≤ k ∧ s[k]? = some ' ' then
      (re3Tail (s.drop (k + 1))).map fun nn => (s.take k, nn.1, nn.2.1, nn.2.2)
    else none

/-- Tail of regex 4 after the first group's space:
`(\d+[a-t]?)\s?(u\.|und)\s?(.+)$`.  The final `\s?` backtracks to the
empty match when taking the whitespace would leave nothing for `(.+)`. -/
def re4Tail (t : List Char) : Option (List Char × List Char) := do
  let nr ← consumeNum t
  let r ← consumeUnd (consumeOptWs nr.2)
  match r with
  | [] => none
  | c :: rs => if pySpace c ∧ rs ≠ [] then some (nr.1, rs) else some (nr.1, c :: rs)

/-- Regex 4: `^(.+) (\d+[a-t]?)\s?(u\.|und)\s?(.+)$`. -/
def re4 (s : List Char) : Option (List Char × List Char × List Char) :=
  (List.range s.length).reverse.findSome? fun k =>
    if 1 ≤ k ∧ s[k]? = some ' ' then
      (re4Tail (s.drop (k + 1))).map fun nn => (s.take k, nn.1, nn.2)
    else none

/-- `is_street` of `cleanup_address`. -/
def isStreet (T : SplitterTables) (s : List Char) : Bool :=
  T.street_abbrevs.contains s || T.streets.contains s

/-- Fourth `if` block of `cleanup_address` (street + number "und" POI). -/
def cleanup_address_r4 (T : SplitterTables) (addr : List Char) :
    List (List Char) :=
  match re4 addr with
  | some g =>
    if isStreet T g.1 ∧ T.pois.contains g.2.2 then
      [g.1 ++ [' '] ++ g.2.1, g.2.2]
    else []
  | none => []

/-- Third `if` block of `cleanup_address` (two streets), falling through
to the fourth. -/
def cleanup_address_r3 (T : SplitterTables) (addr : List Char) :
    List (List Char) :=
  match re3 addr with
  | some g =>
    if isStreet T g.1 ∧ isStreet T g.2.2.1 then
      [g.1 ++ [' '] ++ g.2.1, g.2.2.1 ++ [' '] ++ g.2.2.2]
    else cleanup_address_r4 T addr
  | none => cleanup_address_r4 T addr

/-- Second `if` block of `cleanup_address` (one street, two numbers),
falling through to the third. -/
def cleanup_address_r2 (T : SplitterTables) (addr : List Char) :
    List (List Char) :=
  match re2 addr with
  | some g =>
    if isStreet T g.1 then
      [g.1 ++ [' '] ++ g.2.1, g.1 ++ [' '] ++ g.2.2]
    else cleanup_address_r3 T addr
  | none => cleanup_address_r3 T addr

/-- `Splitter.cleanup_address` (split_v2.py lines 255-276): POI check,
then the four regex blocks in order; a regex match whose street group does
not resolve falls through to the next block. -/
def cleanup_address (T : SplitterTables) (addr : List Char) :
    List (List Char) :=
  if T.pois.contains addr then [addr]
  else
    match re1 addr with
    | some g =>
      if isStreet T g.1 then [g.1 ++ [' '] ++ g.2]
      else cleanup_address_r2 T addr
    | none => cleanup_address_r2 T addr

/-- `Splitter.split_addresses` (split_v2.py lines 241-253). -/
def split_addresses (T : SplitterTables) (text : List Char) :
    (List (List Char) × List Char) :=
  let p := (pySplit ',' text).map pyStrip
  if p.length = 0 then ([], text)
  else
    let addrs := cleanup_address T (p.headD [])
    let p := if addrs.length > 0 then p.tail else p
    let ap : List (List Char) × List (List Char) :=
      if p.length > 0 then
        let final := cleanup_address T ((p.getLast?).getD [])
        if final ≠ [] then (addrs ++ final, p.dropLast) else (addrs, p)
      else (addrs, p)
    (ap.1, pyJoin ", ".data ap.2)

/-- Stable insertion of an OCR line after all lines with smaller-or-equal
y; `sortByY` below is then the stable sort `sorted(lines, key=lambda l:
l.box.y)` used by `split_column`. -/
def insertByY (l : OCRLine) : List OCRLine → List OCRLine
  | [] => [l]
  | x :: xs => if x.box.y ≤ l.box.y then x :: insertByY l xs else l :: x :: xs

/-- Python `sorted(lines, key=lambda l: l.box.y)` (a stable sort). -/
def sortByY (lines : List OCRLine) : List OCRLine :=
  lines.foldl (fun acc l => insertByY l acc) []

/-- The per-line body of the `split_column` loop (split_v2.py lines
126-163).  The state carries the running `lemma` (the family name to
substitute for a dash) and the accumulated entries. -/
def splitColumnStep (T : SplitterTables) (min_x max_x : Int)
    (st : List Char × List AddressBookEntry) (line : OCRLine) :
    Option (List Char × List AddressBookEntry) := do
  let nr ← split_name line.text
  let nl : List Char × List Char :=
    if nr.1 = "—".data then (st.1, st.1)
    else (nr.1, pyStrip ((pySplit '-' nr.1).headD []))
  let cr := split_company nl.1 nr.2
  let nmt ← if cr.1 ≠ [] then
      some (cr.1, ([] : List Char), "[Firma]".data, cr.2)
    else
      (split_maiden_name cr.2).map fun mr =>
        let tr := split_title T.titles mr.2
        (nl.1, mr.1, tr.1, tr.2)
  let gr := split_given_name T.given_names nmt.2.2.2
  let tr₂ :=
    if nmt.2.2.1 = [] then split_title T.titles gr.2 else (nmt.2.2.1, gr.2)
  let ar := split_addresses T tr₂.2
  let orr := split_occupations T.occupations ar.2
  let box := Box.mk min_x line.box.y (max_x - min_x) line.box.height
  let entry := AddressBookEntry.mk none line.page_id box nmt.1 gr.1 nmt.2.1 []
    tr₂.1 orr.1 ar.1 [] orr.2
  pure (nl.2, st.2 ++ [entry])

/-- `Splitter.split_column` (split_v2.py lines 120-164): sort by y, merge,
compute the shared horizontal extent, then run the extraction pipeline on
every merged line.  `none` models an uncaught Python exception: an
assertion failure or `IndexError` below, or `min()`/`max()` on an empty
sequence when there are no lines. -/
def split_column (T : SplitterTables) (lines : List OCRLine) :
    Option (List AddressBookEntry) := do
  let merged ← merge_lines (sortByY lines)
  match merged with
  | [] => none
  | m₀ :: _ =>
    let min_x := (merged.map (fun l => l.box.x)).foldl min m₀.box.x
    let max_x := (merged.map (fun l => l.box.x + l.box.width)).foldl max
      (m₀.box.x + m₀.box.width)
    let fr ← merged.foldlM (splitColumnStep T min_x max_x) ([], [])
    pure fr.2

/-- The comma split never produces the empty list of fields. -/
theorem pySplitP_ne_nil (p : Char → Bool) (s : List Char) : pySplitP p s ≠ [] := by
  cases s with
  | nil => simp [pySplitP]
  | cons c rest => simp only [pySplitP]; split <;> simp

/-- C3: `split_name` splits on the first comma and canonicalizes a leading
nobility particle, with `split_name "Meier, M., Schneiderin" =
("Meier", "M., Schneiderin")` and `split_name "v. Büren H., geb. v. Tavel"
= ("von Büren", "H., geb. v. Tavel")`; and whenever the name field is just
a dash, en-dash or em-dash glyph, the returned name is the sentinel "—"
(to be resolved by the caller to the previous entry's family name). -/
theorem split_name_spec :
    split_name "Meier, M., Schneiderin".data =
      some ("Meier".data, "M., Schneiderin".data) ∧
    split_name "v. Büren H., geb. v. Tavel".data =
      some ("von Büren".data, "H., geb. v. Tavel".data) ∧
    (∀ d, (d = '-' ∨ d = '–' ∨ d = '—') →
      (split_name [d]).map Prod.fst = some "—".data ∧
      (∀ s, (split_name (d :: ',' :: s)).map Prod.fst = some "—".data)) := by
  refine ⟨rfl, rfl, ?_⟩
  rintro d (rfl | rfl | rfl) <;>
    refine ⟨rfl, fun s => ?_⟩ <;>
    simp [split_name, pySplit, pySplitP, pySplitWS, pySplitP_ne_nil, pyReplace,
      pyReplaceFuel, pyJoin, pySubstr, NOBILITY_PREFIXES, pySpace, apos,
      List.lookup, List.intercalate]

/-- C3 witness: the dash case of `split_name_spec` at a concrete input. -/
theorem split_name_spec_witness :
    ('—' = '-' ∨ '—' = '–' ∨ '—' = '—') ∧
    (split_name ('—' :: ',' :: " Marie, Näherin".data)).map Prod.fst =
      some "—".data :=
  ⟨by decide, (split_name_spec.2.2 '—' (by decide)).2 " Marie, Näherin".data⟩

/-- A pattern containing a character absent from `s` never occurs in `s`,
so Python `replace` leaves `s` unchanged. -/
theorem pyReplaceFuel_id (pat rep : List Char) (fuel : Nat) :
    ∀ s : List Char, ¬ pat <:+: s → pyReplaceFuel pat rep fuel s = s := by
  induction fuel with
  | zero => intro s _; rfl
  | succ n ih =>
    intro s h
    match s with
    | [] => rfl
    | c :: rest =>
      rw [pyReplaceFuel]
      rw [if_neg, ih rest]
      · intro hinf
        exact h (List.infix_cons hinf)
      · intro hpre
        rw [List.isPrefixOf_iff_prefix] at hpre
        exact h hpre.isInfix

/-- Python `replace` leaves a string without occurrences of the pattern
unchanged. -/
theorem pyReplace_id (s pat rep : List Char) (h : ¬ pat <:+: s) :
    pyReplace s pat rep = s :=
  pyReplaceFuel_id pat rep s.length s h

/-- An all-whitespace string has no whitespace-separated words. -/
theorem pySplitWS_eq_nil_of_all_space (s : List Char)
    (h : ∀ c ∈ s, pySpace c = true) : pySplitWS s = [] := by
  induction s with
  | nil => rfl
  | cons c rest ih =>
    have hc : pySpace c = true := h c (List.mem_cons_self c rest)
    simp only [pySplitWS, pySplitP, hc, if_true, List.filter]
    simpa [pySplitWS] using ih (fun x hx => h x (List.mem_cons_of_mem c hx))

/-- C10: on an input whose portion before the first comma contains no
whitespace-separated words, `split_name` hits `words[0]` on an empty list
and raises `IndexError` (modelled as `none`); `split_column` calls
`split_name` on every merged line and propagates the exception, as shown
at a concrete one-line column. -/
theorem split_name_raises_on_wordless_first_field :
    (∀ text : List Char,
      (∀ c ∈ (pySplit ',' text).headD [], pySpace c = true) →
      split_name text = none) ∧
    (∀ T : SplitterTables,
      split_column T [OCRLine.mk 1 1 ", Schneiderin".data (Box.mk 0 0 10 10)] =
        none) := by
  constructor
  · intro text h
    have hd : ('-' : Char) ∉ (pySplit ',' text).headD [] := by
      intro hmem
      have := h '-' hmem
      simp [pySpace] at this
    have hr1 : pyReplace ((pySplit ',' text).headD []) " -".data "-".data =
        (pySplit ',' text).headD [] := by
      apply pyReplace_id
      intro hinf
      exact hd (hinf.subset (by decide))
    have hr2 : pyReplace ((pySplit ',' text).headD []) "- ".data "-".data =
        (pySplit ',' text).headD [] := by
      apply pyReplace_id
      intro hinf
      exact hd (hinf.subset (by decide))
    have hws : pySplitWS ((pySplit ',' text).headD []) = [] :=
      pySplitWS_eq_nil_of_all_space _ h
    simp only [split_name]
    rw [hr1, hr2, hws]
    rfl
  · intro T
    rfl

/-- C10 witness: the concrete input ", Schneiderin" (empty before the
first comma). -/
theorem split_name_raises_on_wordless_first_field_witness :
    (∀ c ∈ (pySplit ',' ", Schneiderin".data).headD [], pySpace c = true) ∧
    split_name ", Schneiderin".data = none ∧
    split_column (SplitterTables.mk [] [] [] [] [] [])
      [OCRLine.mk 1 1 ", Schneiderin".data (Box.mk 0 0 10 10)] = none :=
  ⟨by decide,
   split_name_raises_on_wordless_first_field.1 ", Schneiderin".data (by decide),
   split_name_raises_on_wordless_first_field.2 (SplitterTables.mk [] [] [] [] [] [])⟩

/-- C7: `split_given_name` extracts the leading comma-segment exactly when
every whitespace-separated word in it lies in the given-names table, and
returns the empty string with the text unchanged otherwise. -/
theorem split_given_name_spec (gn : List (List Char)) (text : List Char) :
    ((∀ w ∈ pySplitWS (((pySplit ',' text).map pyStrip).headD []), w ∈ gn) →
      split_given_name gn text =
        (((pySplit ',' text).map pyStrip).headD [],
         pyJoin ", ".data ((pySplit ',' text).map pyStrip).tail)) ∧
    ((∃ w ∈ pySplitWS (((pySplit ',' text).map pyStrip).headD []), w ∉ gn) →
      split_given_name gn text = ([], text)) := by
  have hne : (pySplit ',' text).map pyStrip ≠ [] := by
    intro hnil
    exact pySplitP_ne_nil (· == ',') text (List.map_eq_nil_iff.mp hnil)
  constructor
  · intro h
    have hall : (pySplitWS (((pySplit ',' text).map pyStrip).headD [])).all
        (fun n => gn.contains n) = true := by
      rw [List.all_eq_true]
      intro w hw
      simp only [List.contains, List.elem_eq_mem, decide_eq_true_eq]
      exact h w hw
    simp only [split_given_name]
    rw [if_pos ⟨List.length_pos.mpr hne, hall⟩]
  · rintro ⟨w, hw, hnot⟩
    simp only [split_given_name]
    rw [if_neg]
    rintro ⟨-, hall⟩
    rw [List.all_eq_true] at hall
    have := hall w hw
    simp only [List.contains, List.elem_eq_mem, decide_eq_true_eq] at this
    exact hnot this

/-- C7 witness: both directions at concrete inputs over the table
with the given names "Anna" and "Maria". -/
theorem split_given_name_spec_witness :
    (∀ w ∈ pySplitWS (((pySplit ',' "Anna Maria, Näherin".data).map
        pyStrip).headD []), w ∈ ["Anna".data, "Maria".data]) ∧
    split_given_name ["Anna".data, "Maria".data] "Anna Maria, Näherin".data =
      ("Anna Maria".data, "Näherin".data) ∧
    split_given_name ["Anna".data, "Maria".data] "Anna Berta, Näherin".data =
      ([], "Anna Berta, Näherin".data) :=
  ⟨by decide,
   by
    rw [(split_given_name_spec ["Anna".data, "Maria".data]
      "Anna Maria, Näherin".data).1 (by decide)]
    decide,
   (split_given_name_spec ["Anna".data, "Maria".data]
      "Anna Berta, Näherin".data).2 ⟨"Berta".data, by decide, by decide⟩⟩

/-- C4: assuming "Metzg." is a known street abbreviation and neither
"Something" nor the spurious greedy group "Metzg. 85 und" resolves via the
street tables (and none of the whole segments is a point of interest),
`cleanup_address "Metzg. 85 und 87" = ["Metzg. 85", "Metzg. 87"]` and
`cleanup_address "Something 85" = []`. -/
theorem cleanup_address_spec (T : SplitterTables)
    (h1 : "Metzg.".data ∈ T.street_abbrevs)
    (h2 : "Metzg. 85 und".data ∉ T.street_abbrevs)
    (h3 : "Metzg. 85 und".data ∉ T.streets)
    (h4 : "Metzg. 85 und 87".data ∉ T.pois)
    (h5 : "Something".data ∉ T.street_abbrevs)
    (h6 : "Something".data ∉ T.streets)
    (h7 : "Something 85".data ∉ T.pois) :
    cleanup_address T "Metzg. 85 und 87".data =
      ["Metzg. 85".data, "Metzg. 87".data] ∧
    cleanup_address T "Something 85".data = [] := by
  have e1 : re1 "Metzg. 85 und 87".data =
      some ("Metzg. 85 und".data, "87".data) := rfl
  have e2 : re2 "Metzg. 85 und 87".data =
      some ("Metzg.".data, "85".data, "87".data) := rfl
  have e1' : re1 "Something 85".data = some ("Something".data, "85".data) := rfl
  have e2' : re2 "Something 85".data = none := rfl
  have e3' : re3 "Something 85".data = none := rfl
  have e4' : re4 "Something 85".data = none := rfl
  have c4 : T.pois.contains "Metzg. 85 und 87".data = false := by
    simp only [List.contains, List.elem_eq_mem, decide_eq_false_iff_not]
    exact h4
  have c7 : T.pois.contains "Something 85".data = false := by
    simp only [List.contains, List.elem_eq_mem, decide_eq_false_iff_not]
    exact h7
  have s23 : isStreet T "Metzg. 85 und".data = false := by
    simp only [isStreet, List.contains, List.elem_eq_mem, Bool.or_eq_false_iff,
      decide_eq_false_iff_not]
    exact ⟨h2, h3⟩
  have s1 : isStreet T "Metzg.".data = true := by
    simp only [isStreet, List.contains, List.elem_eq_mem, Bool.or_eq_true,
      decide_eq_true_eq]
    exact Or.inl h1
  have s56 : isStreet T "Something".data = false := by
    simp only [isStreet, List.contains, List.elem_eq_mem, Bool.or_eq_false_iff,
      decide_eq_false_iff_not]
    exact ⟨h5, h6⟩
  constructor
  · rw [cleanup_address, if_neg (by rw [c4]; exact Bool.false_ne_true), e1]
    simp only [s23, Bool.false_eq_true, if_false]
    rw [cleanup_address_r2, e2]
    simp only [s1, if_true]
    decide
  · rw [cleanup_address, if_neg (by rw [c7]; exact Bool.false_ne_true), e1']
    simp only [s56, Bool.false_eq_true, if_false]
    rw [cleanup_address_r2, e2', cleanup_address_r3, e3', cleanup_address_r4, e4']

/-- C4 witness: the concrete table with the single street abbreviation
"Metzg.". -/
theorem cleanup_address_spec_witness :
    ("Metzg.".data ∈ ["Metzg.".data] ∧ "Something".data ∉ (["Metzg.".data] : List (List Char))) ∧
    cleanup_address (SplitterTables.mk [] [] [] [] ["Metzg.".data] [])
        "Metzg. 85 und 87".data = ["Metzg. 85".data, "Metzg. 87".data] ∧
    cleanup_address (SplitterTables.mk [] [] [] [] ["Metzg.".data] [])
        "Something 85".data = [] :=
  ⟨⟨by decide, by decide⟩,
   (cleanup_address_spec (SplitterTables.mk [] [] [] [] ["Metzg.".data] [])
      (by decide) (by decide) (by decide) (by decide) (by decide) (by decide)
      (by decide)).1,
   (cleanup_address_spec (SplitterTables.mk [] [] [] [] ["Metzg.".data] [])
      (by decide) (by decide) (by decide) (by decide) (by decide) (by decide)
      (by decide)).2⟩

/-! ## Validator construction and company normalization (validator.py) -/

/-- Python `s.removesuffix(p)` on `String`. -/
def pyRemoveSuffixStr (s p : String) : String :=
  String.mk (pyRemoveSuffix s.data p.data)

/-- `Validator.read_csv` (validator.py lines 557-564): builds a key-to-row
dictionary, asserting that no key occurs twice.  The sequential
`assert row[key] not in result` fails for some row exactly when the key
column has a duplicate. -/
def read_csv {α : Type} (rows : List (String × α)) :
    Option (List (String × α)) :=
  if (rows.map Prod.fst).Nodup then some rows else none

/-- A Python `assert`: `none` (AssertionError) when the condition fails. -/
def pyAssert (P : Prop) [Decidable P] : Option Unit :=
  if P then some () else none

/-- `read_csv` for a table of which only the key column matters (such as
`streets.csv`): same duplicate-key assertion. -/
def read_keys (keys : List String) : Option (List String) :=
  if keys.Nodup then some keys else none

theorem isSome_read_csv_bind {α β : Type} (rows : List (String × α))
    (f : List (String × α) → Option β) :
    (read_csv rows >>= f).isSome = true ↔
      (rows.map Prod.fst).Nodup ∧ (f rows).isSome = true := by
  unfold read_csv
  split
  case isTrue h => simp [h]
  case isFalse h => simp [h]

theorem isSome_read_keys_bind {β : Type} (keys : List String)
    (f : List String → Option β) :
    (read_keys keys >>= f).isSome = true ↔
      keys.Nodup ∧ (f keys).isSome = true := by
  unfold read_keys
  split
  case isTrue h => simp [h]
  case isFalse h => simp [h]

theorem isSome_pyAssert_bind {β : Type} (P : Prop) [Decidable P]
    (f : Unit → Option β) :
    (pyAssert P >>= f).isSome = true ↔ P ∧ (f ()).isSome = true := by
  unfold pyAssert
  split
  case isTrue h => simp [h]
  case isFalse h => simp [h]

/-- The raw reference-CSV contents `Validator.__init__` loads, as far as
its integrity assertions are concerned: street abbreviation rows
(Abbreviation, Street), occupation rows (Occupation, CH-ISCO-19 code),
ISCO code rows (Code, rest of row), the street key column, and the key
columns of the remaining reference CSVs read with `read_csv` (pages,
given names, nobility names, titles, economic activities, NOGA codes,
POIs).  `family_names.txt` is read with `read_lines` into a set and has
no duplicate check. -/
structure ValidatorInput where
  street_abbrev_rows : List (String × String)
  occupation_rows : List (String × String)
  isco_rows : List (String × String)
  street_rows : List String
  other_csv_keys : List (List String)

/-- The reference tables held by a successfully constructed `Validator`. -/
structure ValidatorTables where
  street_abbrevs : List (String × String)
  occupations : List (String × String)
  isco : List (String × String)
  streets : List String

/-- `Validator.__init__` (validator.py lines 86-112), restricted to its
loading and integrity-checking behaviour: every `read_csv` call asserts
key uniqueness, then every street abbreviation must map to a street
present in the streets table, and every occupation's CH-ISCO-19 code
other than "*" must, after stripping an "-EX" and then a "-WI" suffix,
be present in the ISCO code list.  A failing `assert` aborts
construction (`none`). -/
def validator_init (V : ValidatorInput) : Option ValidatorTables := do
  let street_abbrevs ← read_csv V.street_abbrev_rows
  let occupations ← read_csv V.occupation_rows
  let isco ← read_csv V.isco_rows
  let streets ← read_keys V.street_rows
  let _ ← pyAssert (∀ ks ∈ V.other_csv_keys, ks.Nodup)
  let _ ← pyAssert (∀ r ∈ street_abbrevs, r.2 ∈ streets)
  let _ ← pyAssert (∀ r ∈ occupations, r.2 = "*" ∨
      pyRemoveSuffixStr (pyRemoveSuffixStr r.2 "-EX") "-WI" ∈
        isco.map Prod.fst)
  pure (ValidatorTables.mk street_abbrevs occupations isco streets)

/-- The referential-integrity invariants, written from the spec: no
reference CSV has a duplicate key, every street abbreviation references a
known street, every occupation code (other than "*", after stripping the
EX/WI suffix) is in the official ISCO code list. -/
def RefIntegrity (V : ValidatorInput) : Prop :=
  (V.street_abbrev_rows.map Prod.fst).Nodup ∧
  (V.occupation_rows.map Prod.fst).Nodup ∧
  (V.isco_rows.map Prod.fst).Nodup ∧
  V.street_rows.Nodup ∧
  (∀ ks ∈ V.other_csv_keys, ks.Nodup) ∧
  (∀ r ∈ V.street_abbrev_rows, r.2 ∈ V.street_rows) ∧
  (∀ r ∈ V.occupation_rows, r.2 = "*" ∨
    pyRemoveSuffixStr (pyRemoveSuffixStr r.2 "-EX") "-WI" ∈
      V.isco_rows.map Prod.fst)

/-- C8: Validator construction succeeds exactly when the reference tables
satisfy referential integrity: it fails fast (assertion, no value
produced) whenever a street abbreviation maps to an unknown street, an
occupation's stripped CH-ISCO-19 code other than "*" is absent from the
ISCO code list, or any reference CSV has a duplicate key; it succeeds
when all these invariants hold. -/
theorem validator_init_iff (V : ValidatorInput) :
    (validator_init V).isSome = true ↔ RefIntegrity V := by
  unfold validator_init
  rw [isSome_read_csv_bind, isSome_read_csv_bind, isSome_read_csv_bind,
    isSome_read_keys_bind, isSome_pyAssert_bind, isSome_pyAssert_bind,
    isSome_pyAssert_bind]
  simp only [Option.pure_def, Option.isSome_some, and_true]
  unfold RefIntegrity
  tauto

/-- C8 witness: a small consistent input constructs, and breaking the
street-abbreviation invariant aborts construction. -/
theorem validator_init_iff_witness :
    (validator_init (ValidatorInput.mk [("Metzg.", "Metzgergasse")]
        [("Bäcker", "75120103")] [("75120103", "row")] ["Metzgergasse"]
        [["a", "b"]])).isSome = true ∧
    ¬ (validator_init (ValidatorInput.mk [("Metzg.", "Unbekannt")]
        [] [] ["Metzgergasse"] [])).isSome = true :=
  ⟨(validator_init_iff _).mpr (by unfold RefIntegrity; decide),
   fun h => by
    have h2 := (validator_init_iff _).mp h
    have h3 := h2.2.2.2.2.2.1 ("Metzg.", "Unbekannt") (by decide)
    revert h3
    decide⟩

/-- Dictionary access used by `normalize_company`. -/
def tblLookup (tbl : List (String × String)) (k : String) : Option String :=
  tbl.lookup k

/-- The `Branche i (NOGA-Code)` / `Branche i (NOGA-Bezeichnung)`
computation of `Validator.normalize_company` (validator.py lines
428-441), for the `economic_activities` table (Branche to NOGA-Code) and
the `noga` code list (Code to Name_de).  A `Beruf` field found in the
activities table has its NOGA code looked up directly in the code list
(`self.noga[...]`, a KeyError — `none` — when absent).  Note that line
441 of the source computes `noga_label_3` from `noga_code_2`. -/
def normalize_company_branchen (activities noga : List (String × String))
    (beruf1 beruf2 beruf3 : String) :
    Option (String × String × String × String × String × String) := do
  let cl1 ← match tblLookup activities beruf1 with
    | some c => (tblLookup noga c).map fun l => (c, l)
    | none => some ("", "")
  let cl2 ← match tblLookup activities beruf2 with
    | some c => (tblLookup noga c).map fun l => (c, l)
    | none => some ("", "")
  let cl3 ← match tblLookup activities beruf3 with
    | some c => (tblLookup noga cl2.1).map fun l => (c, l)
    | none => some ("", "")
  pure (cl1.1, cl1.2, cl2.1, cl2.2, cl3.1, cl3.2)

/-- C9 (evidence of the defect): the `Branche 3 (NOGA-Bezeichnung)` label
is looked up under `noga_code_2`, not `noga_code_3`.  With only `Beruf 3`
resolving, the lookup key is the empty string and `normalize_company`
raises `KeyError` (none); with `Beruf 2` and `Beruf 3` both resolving to
different activities, `Branche 3 (NOGA-Bezeichnung)` receives the label
of `Beruf 2`'s NOGA code instead of its own. -/
theorem normalize_company_label3_bug :
    normalize_company_branchen [("Bäckerei", "C10.71")]
      [("C10.71", "Backwarenherstellung")] "" "" "Bäckerei" = none ∧
    normalize_company_branchen
      [("Bäckerei", "C10.71"), ("Gärtnerei", "A01.19")]
      [("C10.71", "Backwarenherstellung"), ("A01.19", "Gartenbau")]
      "" "Gärtnerei" "Bäckerei" =
      some ("", "", "A01.19", "Gartenbau", "C10.71", "Gartenbau") ∧
    "Gartenbau" ≠ "Backwarenherstellung" := by
  refine ⟨rfl, rfl, by decide⟩

/-! ## Idempotence of `cleanup_text` on ASCII input

The remainder of the development proves that `cleanup_text` is idempotent
on non-empty ASCII input that does not end in a trailing continuation
marker.  The strategy: characterize the output of the first pass (no
trailing ":"/"=", no archaic glyph, no ".X" adjacency, no
"digit space lowercase" window, no occurrence of any `REPLACEMENTS` key),
then show every stage of a second pass is the identity on such strings. -/

/-- A prefix of an appended list is a prefix of the left part, or extends
it by a non-empty prefix of the right part. -/
theorem prefix_append_split {α : Type} {a x y : List α} (h : a <+: x ++ y) :
    a <+: x ∨ ∃ a₂, a₂ ≠ [] ∧ a = x ++ a₂ ∧ a₂ <+: y := by
  rcases Nat.le_total a.length x.length with hle | hle
  · exact Or.inl (List.prefix_of_prefix_length_le h (x.prefix_append y) hle)
  · have hx : x <+: a := List.prefix_of_prefix_length_le (x.prefix_append y) h hle
    rcases hx with ⟨a₂, rfl⟩
    by_cases h₂ : a₂ = []
    · subst h₂
      exact Or.inl (by simp)
    · refine Or.inr ⟨a₂, h₂, rfl, ?_⟩
      rcases h with ⟨t, ht⟩
      rw [List.append_assoc] at ht
      exact ⟨t, List.append_cancel_left ht⟩

/-- An infix of an appended list lies in the left part, lies in the right
part, or straddles the junction: a non-empty initial piece of it is a
suffix of the left part and the non-empty remainder a prefix of the right
part. -/
theorem infix_append_split {α : Type} {a : List α} :
    ∀ {x y : List α}, a <:+: x ++ y →
      a <:+: x ∨ a <:+: y ∨
        ∃ i, 0 < i ∧ i < a.length ∧ a.take i <:+ x ∧ a.drop i <+: y := by
  intro x
  induction x with
  | nil =>
    intro y h
    exact Or.inr (Or.inl (by simpa using h))
  | cons c x2 ih =>
    intro y h
    rw [List.cons_append, List.infix_cons_iff] at h
    rcases h with h | h
    · rcases a with _ | ⟨a₀, aT⟩
      · exact Or.inl List.nil_infix
      · rw [List.cons_prefix_cons] at h
        obtain ⟨rfl, h2⟩ := h
        rcases prefix_append_split h2 with h3 | ⟨a₂, hne, ha, hpre⟩
        · exact Or.inl (List.IsPrefix.isInfix (List.cons_prefix_cons.mpr ⟨rfl, h3⟩))
        · subst ha
          have he : (a₀ :: (x2 ++ a₂)) = (a₀ :: x2) ++ a₂ := by simp
          refine Or.inr (Or.inr ⟨(a₀ :: x2).length, by simp, ?_, ?_, ?_⟩)
          · have := List.length_pos.mpr hne
            simp only [List.length_cons, List.length_append]
            omega
          · rw [he, List.take_left]
          · rw [he, List.drop_left]
            exact hpre
    · rcases ih h with h₂ | h₂ | ⟨i, hi0, hilen, htake, hdrop⟩
      · exact Or.inl (List.infix_cons h₂)
      · exact Or.inr (Or.inl h₂)
      · exact Or.inr (Or.inr
          ⟨i, hi0, hilen, htake.trans (List.suffix_cons c x2), hdrop⟩)

/-- `pySubstr` computes infix containment. -/
theorem pySubstr_iff {a : List Char} : ∀ {s : List Char}, pySubstr a s = true ↔ a <:+: s := by
  intro s
  induction s with
  | nil =>
    simp only [pySubstr, List.isEmpty_iff, List.infix_nil]
  | cons c rest ih =>
    simp only [pySubstr, Bool.or_eq_true, List.isPrefixOf_iff_prefix, ih,
      List.infix_cons_iff]

theorem pyReplaceFuel_nil (k v : List Char) : ∀ fuel, pyReplaceFuel k v fuel [] = [] := by
  intro fuel
  cases fuel <;> rfl

theorem pyReplaceFuel_ne_nil (k v : List Char) (hv : v ≠ []) :
    ∀ fuel s, s ≠ [] → pyReplaceFuel k v fuel s ≠ [] := by
  intro fuel
  induction fuel with
  | zero => intro s hs; exact hs
  | succ n ih =>
    intro s hs
    match s with
    | [] => exact absurd rfl hs
    | c :: rest =>
      simp only [pyReplaceFuel]
      split
      · simp [hv]
      · simp

/-- A prefix of a list makes the list an append of it and the
corresponding drop. -/
theorem eq_append_drop_of_prefix {k s : List Char} (h : k <+: s) :
    s = k ++ s.drop k.length := by
  rcases h with ⟨t, rfl⟩
  rw [List.drop_left]

theorem getLast?_drop_of_ne_nil {s : List Char} {n : Nat} (h : s.drop n ≠ []) :
    (s.drop n).getLast? = s.getLast? := by
  conv_rhs => rw [← List.take_append_drop n s]
  rw [List.getLast?_append_of_ne_nil _ h]

/-- The first character of a replacement result is the first character of
the input, or (after a match at the very start) the first character of the
replacement value, the input then starting with the pattern. -/
theorem head?_pyReplaceFuel (k v : List Char) (hk : k ≠ []) (hv : v ≠ []) :
    ∀ fuel s, (pyReplaceFuel k v fuel s).head? = s.head? ∨
      ((pyReplaceFuel k v fuel s).head? = v.head? ∧ s.head? = k.head?) := by
  intro fuel
  cases fuel with
  | zero => intro s; exact Or.inl rfl
  | succ n =>
    intro s
    match s with
    | [] => exact Or.inl rfl
    | c :: rest =>
      simp only [pyReplaceFuel]
      split
      case isTrue hmatch =>
        refine Or.inr ⟨?_, ?_⟩
        · match v with
          | v₀ :: vt => rfl
          | [] => exact absurd rfl hv
        · have hp := List.isPrefixOf_iff_prefix.mp hmatch
          match k with
          | k₀ :: kt =>
            rw [List.cons_prefix_cons] at hp
            rw [hp.1]
            rfl
          | [] => exact absurd rfl hk
      case isFalse => exact Or.inl rfl

/-- The last character of a replacement result is the last character of
the input or the last character of the replacement value. -/
theorem getLast?_pyReplaceFuel (k v : List Char) (hv : v ≠ []) :
    ∀ fuel s, (pyReplaceFuel k v fuel s).getLast? = s.getLast? ∨
      (pyReplaceFuel k v fuel s).getLast? = v.getLast? := by
  intro fuel
  induction fuel with
  | zero => intro s; exact Or.inl rfl
  | succ n ih =>
    intro s
    match s with
    | [] => exact Or.inl rfl
    | c :: rest =>
      simp only [pyReplaceFuel]
      split
      case isTrue hmatch =>
        by_cases hw : pyReplaceFuel k v n ((c :: rest).drop k.length) = []
        · rw [hw, List.append_nil]
          exact Or.inr rfl
        · rw [List.getLast?_append_of_ne_nil _ hw]
          rcases ih ((c :: rest).drop k.length) with h | h
          · left
            rw [h]
            apply getLast?_drop_of_ne_nil
            intro hnil
            rw [hnil, pyReplaceFuel_nil] at hw
            exact hw rfl
          · exact Or.inr h
      case isFalse =>
        by_cases hw : pyReplaceFuel k v n rest = []
        · have hrest : rest = [] := by
            by_contra hne
            exact pyReplaceFuel_ne_nil k v hv n rest hne hw
          subst hrest
          rw [pyReplaceFuel_nil]
          exact Or.inl rfl
        · have hrest : rest ≠ [] := by
            intro hr
            rw [hr, pyReplaceFuel_nil] at hw
            exact hw rfl
          have e1 : (c :: pyReplaceFuel k v n rest).getLast? =
              (pyReplaceFuel k v n rest).getLast? := by
            rw [show (c :: pyReplaceFuel k v n rest) =
              [c] ++ pyReplaceFuel k v n rest from rfl]
            exact List.getLast?_append_of_ne_nil _ hw
          have e2 : (c :: rest).getLast? = rest.getLast? := by
            rw [show (c :: rest) = [c] ++ rest from rfl]
            exact List.getLast?_append_of_ne_nil _ hrest
          rw [e1, e2]
          exact ih rest

/-- Mem-level bound: every character of a replacement result comes from
the input or from the replacement value. -/
theorem mem_pyReplaceFuel (k v : List Char) {c : Char} :
    ∀ fuel s, c ∈ pyReplaceFuel k v fuel s → c ∈ s ∨ c ∈ v := by
  intro fuel
  induction fuel with
  | zero => intro s h; exact Or.inl h
  | succ n ih =>
    intro s h
    match s with
    | [] => exact Or.inl h
    | d :: rest =>
      simp only [pyReplaceFuel] at h
      split at h
      · rcases List.mem_append.mp h with h₂ | h₂
        · exact Or.inr h₂
        · rcases ih _ h₂ with h₃ | h₃
          · exact Or.inl (List.mem_of_mem_drop h₃)
          · exact Or.inr h₃
      · rcases List.mem_cons.mp h with h₂ | h₂
        · exact Or.inl (h₂ ▸ List.mem_cons_self d rest)
        · rcases ih _ h₂ with h₃ | h₃
          · exact Or.inl (List.mem_cons_of_mem d h₃)
          · exact Or.inr h₃

/-- The central straddling lemma: if the characters of `a` up to position
`i` are known to sit at the end of the already-processed text `L`, and
the whole old text `L ++ s` contains no occurrence of `a`, then the
remaining characters of `a` cannot be a prefix of the replacement result
of `s` — provided a straddle into the replacement value `v` maps back
into the pattern `k`, and `v` never sits strictly inside `a`. -/
theorem strad_preserve (a k v : List Char)
    (hdrop_pre : ∀ i, 0 < i → i < a.length → a.drop i <+: v → a.drop i <+: k)
    (hnot_strict : ∀ i, 0 < i → i < a.length → v <+: a.drop i → a.drop i = v) :
    ∀ fuel s L i, s.length ≤ fuel → 0 < i → i < a.length →
      a.take i <:+ L → ¬ a <:+: L ++ s →
      ¬ (a.drop i <+: pyReplaceFuel k v fuel s) := by
  intro fuel
  induction fuel with
  | zero =>
    intro s L i hlen hi0 hilen htake hninf hpre
    have hs : s = [] := List.length_eq_zero.mp (Nat.le_zero.mp hlen)
    subst hs
    have hd : a.drop i = [] := List.prefix_nil.mp hpre
    rw [List.drop_eq_nil_iff] at hd
    omega
  | succ n ih =>
    intro s L i hlen hi0 hilen htake hninf hpre
    match s with
    | [] =>
      have hd : a.drop i = [] := List.prefix_nil.mp hpre
      rw [List.drop_eq_nil_iff] at hd
      omega
    | c :: rest =>
      simp only [pyReplaceFuel] at hpre
      by_cases hmatch : k.isPrefixOf (c :: rest)
      · rw [if_pos hmatch] at hpre
        have hkpre : k <+: c :: rest := List.isPrefixOf_iff_prefix.mp hmatch
        have hs : (c :: rest : List Char) = k ++ (c :: rest).drop k.length :=
          eq_append_drop_of_prefix hkpre
        rcases prefix_append_split hpre with h1 | ⟨t, htne, hteq, _⟩
        · have h2 := hdrop_pre i hi0 hilen h1
          apply hninf
          rcases htake with ⟨L₁, rfl⟩
          rcases h2 with ⟨k₂, hk₂⟩
          set D := (c :: rest).drop k.length with hD
          have key : L₁ ++ List.take i a ++ (c :: rest) = L₁ ++ (a ++ (k₂ ++ D)) := by
            conv_lhs => rw [hs, ← hk₂]
            conv_rhs => rw [← List.take_append_drop i a]
            simp only [List.append_assoc]
          refine ⟨L₁, k₂ ++ D, ?_⟩
          rw [key]
          simp [List.append_assoc]
        · have hvs : v <+: a.drop i := ⟨t, hteq.symm⟩
          have heq := hnot_strict i hi0 hilen hvs
          have h2 : v ++ t = v := by rw [← hteq, heq]
          have h3 := congrArg List.length h2
          simp only [List.length_append] at h3
          exact htne (List.length_eq_zero.mp (by omega))
      · rw [if_neg hmatch] at hpre
        have hdne : a.drop i ≠ [] := by
          rw [ne_eq, List.drop_eq_nil_iff]
          omega
        obtain ⟨d, dt, hd⟩ : ∃ d dt, a.drop i = d :: dt := by
          cases h : a.drop i with
          | nil => exact absurd h hdne
          | cons d dt => exact ⟨d, dt, rfl⟩
        rw [hd, List.cons_prefix_cons] at hpre
        obtain ⟨hdc, hdt⟩ := hpre
        rw [hdc] at hd
        have hci : a[i]? = some c := by
          rw [← List.head?_drop, hd]
          rfl
        have htake1 : a.take (i + 1) = a.take i ++ [c] := by
          rw [List.take_succ, hci]
          rfl
        by_cases hend : i + 1 = a.length
        · apply hninf
          have ha : a = a.take i ++ [c] := by
            conv_lhs => rw [← List.take_length a, ← hend, htake1]
          rcases htake with ⟨L₁, rfl⟩
          refine ⟨L₁, rest, ?_⟩
          conv_lhs => rw [ha]
          simp [List.append_assoc]
        · have hdt2 : dt = a.drop (i + 1) := by
            have h2 : a.drop (i + 1) = (a.drop i).drop 1 := by
              rw [List.drop_drop]
            rw [h2, hd]
            rfl
          have happ : (L ++ [c]) ++ rest = L ++ (c :: rest) := by
            simp
          refine ih rest (L ++ [c]) (i + 1)
            (by simpa using Nat.le_of_succ_le_succ hlen) (by omega) (by omega)
            ?_ (by rw [happ]; exact hninf) ?_
          · rcases htake with ⟨L₁, rfl⟩
            rw [htake1]
            exact ⟨L₁, by rw [List.append_assoc]⟩
          · rw [← hdt2]
            exact hdt

/-- Replacing `k` by `v` preserves the absence of `a`, under the
straddling side conditions. -/
theorem not_infix_pyReplaceFuel (a k v : List Char) (hk : k ≠ [])
    (hav : ¬ a <:+: v)
    (hdrop_pre : ∀ i, 0 < i → i < a.length → a.drop i <+: v → a.drop i <+: k)
    (hnot_strict : ∀ i, 0 < i → i < a.length → v <+: a.drop i → a.drop i = v)
    (htake_suf : ∀ i, 0 < i → i < a.length → a.take i <:+ v → a.take i <:+ k) :
    ∀ fuel s, s.length ≤ fuel → ¬ a <:+: s → ¬ a <:+: pyReplaceFuel k v fuel s := by
  intro fuel
  induction fuel with
  | zero => intro s _ h; exact h
  | succ n ih =>
    intro s hlen h hinf
    match s with
    | [] => exact h hinf
    | c :: rest =>
      simp only [pyReplaceFuel] at hinf
      by_cases hmatch : k.isPrefixOf (c :: rest)
      · rw [if_pos hmatch] at hinf
        have hkpre : k <+: c :: rest := List.isPrefixOf_iff_prefix.mp hmatch
        have hs : (c :: rest : List Char) = k ++ (c :: rest).drop k.length :=
          eq_append_drop_of_prefix hkpre
        have hdlen : ((c :: rest).drop k.length).length ≤ n := by
          have hk1 : 1 ≤ k.length := by
            cases k with
            | nil => exact absurd rfl hk
            | cons x xs => simp
          simp only [List.length_drop, List.length_cons] at *
          omega
        have hnd : ¬ a <:+: (c :: rest).drop k.length := by
          intro h2
          exact h (h2.trans (List.drop_suffix _ _).isInfix)
        rcases infix_append_split hinf with h1 | h1 | ⟨i, hi0, hilen, htk, hdr⟩
        · exact hav h1
        · exact ih _ hdlen hnd h1
        · have htk2 := htake_suf i hi0 hilen htk
          exact strad_preserve a k v hdrop_pre hnot_strict n
            ((c :: rest).drop k.length) k i hdlen hi0 hilen htk2
            (by rw [← hs]; exact h) hdr
      · rw [if_neg hmatch] at hinf
        rw [List.infix_cons_iff] at hinf
        rcases hinf with h1 | h1
        · rcases a with _ | ⟨a₀, aT⟩
          · exact h List.nil_infix
          · rw [List.cons_prefix_cons] at h1
            obtain ⟨rfl, h2⟩ := h1
            by_cases hT : aT = []
            · subst hT
              exact h ⟨[], rest, rfl⟩
            · have hlen2 : 1 < (a₀ :: aT).length := by
                simp only [List.length_cons]
                have := List.length_pos.mpr hT
                omega
              refine strad_preserve (a₀ :: aT) k v hdrop_pre hnot_strict n rest
                [a₀] 1 (by simpa using Nat.le_of_succ_le_succ hlen) (by omega)
                hlen2 (List.suffix_refl _) ?_ (by simpa using h2)
              simpa using h
        · have hnr : ¬ a <:+: rest := by
            intro h2
            exact h (List.infix_cons h2)
          exact ih rest (by simpa using Nat.le_of_succ_le_succ hlen) hnr h1

/-- The removal analogue of `strad_preserve`: in `s.replace(a, v)` no
dangling tail of `a` can be a prefix of the result when the scan has
already established that `a` is not a prefix of `a.take i ++ s`. -/
theorem remstrad (a v : List Char) (ha : a ≠ [])
    (hdrop_pre : ∀ i, 0 < i → i < a.length → a.drop i <+: v → a.drop i <+: a)
    (hnot_strict : ∀ i, 0 < i → i < a.length → v <+: a.drop i → a.drop i = v) :
    ∀ fuel s i, s.length ≤ fuel → 0 < i → i < a.length →
      ¬ a <+: (a.take i ++ s) →
      ¬ (a.drop i <+: pyReplaceFuel a v fuel s) := by
  intro fuel
  induction fuel with
  | zero =>
    intro s i hlen hi0 hilen hnp hpre
    have hs : s = [] := List.length_eq_zero.mp (Nat.le_zero.mp hlen)
    subst hs
    have hd : a.drop i = [] := List.prefix_nil.mp hpre
    rw [List.drop_eq_nil_iff] at hd
    omega
  | succ n ih =>
    intro s i hlen hi0 hilen hnp hpre
    match s with
    | [] =>
      have hd : a.drop i = [] := List.prefix_nil.mp hpre
      rw [List.drop_eq_nil_iff] at hd
      omega
    | c :: rest =>
      simp only [pyReplaceFuel] at hpre
      by_cases hmatch : a.isPrefixOf (c :: rest)
      · rw [if_pos hmatch] at hpre
        rcases prefix_append_split hpre with h1 | ⟨t, htne, hteq, _⟩
        · have h2 := hdrop_pre i hi0 hilen h1
          apply hnp
          rcases h2 with ⟨a₂, ha₂⟩
          have hkpre : a <+: c :: rest := List.isPrefixOf_iff_prefix.mp hmatch
          rcases hkpre with ⟨R, hR⟩
          refine ⟨a₂ ++ R, ?_⟩
          conv_lhs => rw [← List.take_append_drop i a]
          rw [List.append_assoc]
          congr 1
          rw [← List.append_assoc, ha₂, hR]
        · have hvs : v <+: a.drop i := ⟨t, hteq.symm⟩
          have heq := hnot_strict i hi0 hilen hvs
          have h2 : v ++ t = v := by rw [← hteq, heq]
          have h3 := congrArg List.length h2
          simp only [List.length_append] at h3
          exact htne (List.length_eq_zero.mp (by omega))
      · rw [if_neg hmatch] at hpre
        have hdne : a.drop i ≠ [] := by
          rw [ne_eq, List.drop_eq_nil_iff]
          omega
        obtain ⟨d, dt, hd⟩ : ∃ d dt, a.drop i = d :: dt := by
          cases hh : a.drop i with
          | nil => exact absurd hh hdne
          | cons d dt => exact ⟨d, dt, rfl⟩
        rw [hd, List.cons_prefix_cons] at hpre
        obtain ⟨hdc, hdt⟩ := hpre
        rw [hdc] at hd
        have hci : a[i]? = some c := by
          rw [← List.head?_drop, hd]
          rfl
        have htake1 : a.take (i + 1) = a.take i ++ [c] := by
          rw [List.take_succ, hci]
          rfl
        by_cases hend : i + 1 = a.length
        · apply hnp
          have ha2 : a = a.take i ++ [c] := by
            conv_lhs => rw [← List.take_length a, ← hend, htake1]
          conv_lhs => rw [ha2]
          exact ⟨rest, by simp⟩
        · have hdt2 : dt = a.drop (i + 1) := by
            have h2 : a.drop (i + 1) = (a.drop i).drop 1 := by
              rw [List.drop_drop]
            rw [h2, hd]
            rfl
          refine ih rest (i + 1) (by simpa using Nat.le_of_succ_le_succ hlen)
            (by omega) (by omega) ?_ ?_
          · rw [htake1, List.append_assoc]
            simpa using hnp
          · rw [← hdt2]
            exact hdt

/-- `s.replace(a, v)` removes every occurrence of `a` and creates no new
one, under the straddling side conditions. -/
theorem not_infix_pyReplaceFuel_self (a v : List Char) (ha : a ≠ [])
    (hav : ¬ a <:+: v)
    (hdrop_pre : ∀ i, 0 < i → i < a.length → a.drop i <+: v → a.drop i <+: a)
    (hnot_strict : ∀ i, 0 < i → i < a.length → v <+: a.drop i → a.drop i = v)
    (htake_nsuf : ∀ i, 0 < i → i < a.length → ¬ a.take i <:+ v) :
    ∀ fuel s, s.length ≤ fuel → ¬ a <:+: pyReplaceFuel a v fuel s := by
  intro fuel
  induction fuel with
  | zero =>
    intro s hlen hinf
    have hs : s = [] := List.length_eq_zero.mp (Nat.le_zero.mp hlen)
    subst hs
    simp only [pyReplaceFuel, List.infix_nil] at hinf
    exact ha hinf
  | succ n ih =>
    intro s hlen hinf
    match s with
    | [] =>
      rw [pyReplaceFuel_nil, List.infix_nil] at hinf
      exact ha hinf
    | c :: rest =>
      simp only [pyReplaceFuel] at hinf
      by_cases hmatch : a.isPrefixOf (c :: rest)
      · rw [if_pos hmatch] at hinf
        have hdlen : ((c :: rest).drop a.length).length ≤ n := by
          have hk1 : 1 ≤ a.length := by
            cases a with
            | nil => exact absurd rfl ha
            | cons x xs => simp
          simp only [List.length_drop, List.length_cons] at *
          omega
        rcases infix_append_split hinf with h1 | h1 | ⟨i, hi0, hilen, htk, _⟩
        · exact hav h1
        · exact ih _ hdlen h1
        · exact htake_nsuf i hi0 hilen htk
      · rw [if_neg hmatch] at hinf
        rw [List.infix_cons_iff] at hinf
        rcases hinf with h1 | h1
        · rcases a with _ | ⟨a₀, aT⟩
          · exact ha rfl
          · rw [List.cons_prefix_cons] at h1
            obtain ⟨rfl, h2⟩ := h1
            by_cases hT : aT = []
            · subst hT
              exact hmatch (by simpa [List.isPrefixOf_iff_prefix] using
                List.cons_prefix_cons.mpr ⟨rfl, List.nil_prefix⟩)
            · have hlen2 : 1 < (a₀ :: aT).length := by
                simp only [List.length_cons]
                have := List.length_pos.mpr hT
                omega
              refine remstrad (a₀ :: aT) v (by simp) hdrop_pre hnot_strict n
                rest 1 (by simpa using Nat.le_of_succ_le_succ hlen) (by omega)
                hlen2 ?_ (by simpa using h2)
              intro hp
              apply hmatch
              rw [List.isPrefixOf_iff_prefix]
              simpa using hp
        · exact ih rest (by simpa using Nat.le_of_succ_le_succ hlen) h1

/-- Scan for the pattern of the `cleanup_text` regex `\.([0-9A-ZÄÖÜ])`: a
period immediately followed by a character of `dotClass`. -/
def hasDotPairB : List Char → Bool
  | c₁ :: c₂ :: rest => (c₁ == '.' && dotClass c₂) || hasDotPairB (c₂ :: rest)
  | _ => false

/-- The window formed at the boundary between two adjacent strings. -/
def bndDot : Option Char → Option Char → Bool
  | some p, some q => p == '.' && dotClass q
  | _, _ => false

theorem getLast?_cons_ne_nil {α : Type} {c : α} {w : List α} (h : w ≠ []) :
    (c :: w).getLast? = w.getLast? := by
  rw [← List.singleton_append]
  exact List.getLast?_append_of_ne_nil _ h

theorem hasDotPairB_cons (c : Char) (w : List Char) :
    hasDotPairB (c :: w) = (bndDot (some c) w.head? || hasDotPairB w) := by
  cases w <;> rfl

theorem hasDotPairB_append (x y : List Char) :
    hasDotPairB (x ++ y)
      = (hasDotPairB x || bndDot x.getLast? y.head? || hasDotPairB y) := by
  induction x with
  | nil => simp [hasDotPairB, bndDot]
  | cons c x ih =>
    cases x with
    | nil =>
      cases y with
      | nil => rfl
      | cons d ys => rfl
    | cons c₂ x₂ =>
      have h₁ : hasDotPairB ((c :: c₂ :: x₂) ++ y)
          = ((c == '.' && dotClass c₂) || hasDotPairB ((c₂ :: x₂) ++ y)) := rfl
      have h₂ : hasDotPairB (c :: c₂ :: x₂)
          = ((c == '.' && dotClass c₂) || hasDotPairB (c₂ :: x₂)) := rfl
      rw [h₁, ih, h₂, List.getLast?_cons_cons]
      simp only [Bool.or_assoc]

theorem hasDotPairB_tail {c : Char} {w : List Char}
    (h : hasDotPairB (c :: w) = false) : hasDotPairB w = false := by
  rw [hasDotPairB_cons, Bool.or_eq_false_iff] at h
  exact h.2

theorem hasDotPairB_drop {u : List Char} (m : Nat)
    (h : hasDotPairB u = false) : hasDotPairB (u.drop m) = false := by
  induction m generalizing u with
  | zero => exact h
  | succ n ih =>
    cases u with
    | nil => exact h
    | cons c w => exact ih (hasDotPairB_tail h)

theorem fixDotSpacing_head? (u : List Char) : (fixDotSpacing u).head? = u.head? := by
  match u with
  | [] => rfl
  | [c] => rfl
  | c₁ :: c₂ :: rest =>
    rw [fixDotSpacing]
    by_cases h : (c₁ == '.' && dotClass c₂) = true
    · rw [if_pos h]
      have hc1 : c₁ = '.' := beq_iff_eq.mp ((Bool.and_eq_true _ _).mp h).1
      rw [hc1]
      rfl
    · rw [if_neg h]
      rfl

theorem fixDotSpacing_ne_nil (u : List Char) (h : u ≠ []) : fixDotSpacing u ≠ [] := by
  match u with
  | [c] => simp [fixDotSpacing]
  | c₁ :: c₂ :: rest =>
    rw [fixDotSpacing]
    by_cases hc : (c₁ == '.' && dotClass c₂) = true
    · rw [if_pos hc]; simp
    · rw [if_neg hc]; simp

theorem fixNumberSuffix_head? (u : List Char) :
    (fixNumberSuffix u).head? = u.head? := by
  match u with
  | [] => rfl
  | [c] => rfl
  | [c₁, c₂] => rfl
  | c₁ :: c₂ :: c₃ :: rest =>
    rw [fixNumberSuffix]
    by_cases h : (c₁.isDigit && c₂ == ' ' && c₃.isLower) = true
    · rw [if_pos h]; rfl
    · rw [if_neg h]; rfl

theorem fixNumberSuffix_ne_nil (u : List Char) (h : u ≠ []) :
    fixNumberSuffix u ≠ [] := by
  match u with
  | [c] => simp [fixNumberSuffix]
  | [c₁, c₂] => simp [fixNumberSuffix]
  | c₁ :: c₂ :: c₃ :: rest =>
    rw [fixNumberSuffix]
    by_cases hc : (c₁.isDigit && c₂ == ' ' && c₃.isLower) = true
    · rw [if_pos hc]; simp
    · rw [if_neg hc]; simp

theorem fixNumberSuffix_cons_of_not_digit {c : Char} (hc : c.isDigit = false)
    (w : List Char) : fixNumberSuffix (c :: w) = c :: fixNumberSuffix w := by
  match w with
  | [] => rfl
  | [d] => rfl
  | d₁ :: d₂ :: rest =>
    rw [fixNumberSuffix]
    rw [if_neg (by simp [hc])]

theorem mem_fixDotSpacing {c : Char} :
    ∀ u : List Char, c ∈ fixDotSpacing u → c ∈ u ∨ c = ' ' := by
  intro u
  match u with
  | [] => intro h; exact Or.inl h
  | [d] => intro h; exact Or.inl h
  | c₁ :: c₂ :: rest =>
    rw [fixDotSpacing]
    by_cases hc : (c₁ == '.' && dotClass c₂) = true
    · rw [if_pos hc]
      intro h
      have := (Bool.and_eq_true _ _).mp hc
      rcases List.mem_cons.mp h with rfl | h
      · exact Or.inl (by
          rw [← beq_iff_eq.mp this.1]
          exact List.mem_cons_self _ _)
      rcases List.mem_cons.mp h with rfl | h
      · exact Or.inr rfl
      rcases List.mem_cons.mp h with rfl | h
      · exact Or.inl (List.mem_cons_of_mem _ (List.mem_cons_self _ _))
      · rcases mem_fixDotSpacing rest h with h₂ | h₂
        · exact Or.inl (List.mem_cons_of_mem _ (List.mem_cons_of_mem _ h₂))
        · exact Or.inr h₂
    · rw [if_neg hc]
      intro h
      rcases List.mem_cons.mp h with rfl | h
      · exact Or.inl (List.mem_cons_self _ _)
      · rcases mem_fixDotSpacing (c₂ :: rest) h with h₂ | h₂
        · exact Or.inl (List.mem_cons_of_mem _ h₂)
        · exact Or.inr h₂

theorem mem_fixNumberSuffix {c : Char} :
    ∀ u : List Char, c ∈ fixNumberSuffix u → c ∈ u := by
  intro u
  match u with
  | [] => intro h; exact h
  | [d] => intro h; exact h
  | [d₁, d₂] => intro h; exact h
  | c₁ :: c₂ :: c₃ :: rest =>
    rw [fixNumberSuffix]
    by_cases hc : (c₁.isDigit && c₂ == ' ' && c₃.isLower) = true
    · rw [if_pos hc]
      intro h
      rcases List.mem_cons.mp h with rfl | h
      · exact List.mem_cons_self _ _
      rcases List.mem_cons.mp h with rfl | h
      · exact List.mem_cons_of_mem _ (List.mem_cons_of_mem _ (List.mem_cons_self _ _))
      · exact List.mem_cons_of_mem _ (List.mem_cons_of_mem _
          (List.mem_cons_of_mem _ (mem_fixNumberSuffix rest h)))
    · rw [if_neg hc]
      intro h
      rcases List.mem_cons.mp h with rfl | h
      · exact List.mem_cons_self _ _
      · exact List.mem_cons_of_mem _ (mem_fixNumberSuffix (c₂ :: c₃ :: rest) h)

theorem getLast?_fixDotSpacing : ∀ u : List Char,
    (fixDotSpacing u).getLast? = u.getLast? := by
  intro u
  match u with
  | [] => rfl
  | [c] => rfl
  | c₁ :: c₂ :: rest =>
    rw [fixDotSpacing]
    by_cases hc : (c₁ == '.' && dotClass c₂) = true
    · rw [if_pos hc]
      cases rest with
      | nil => rfl
      | cons r rs =>
        have hne := fixDotSpacing_ne_nil (r :: rs) (by simp)
        rw [List.getLast?_cons_cons, List.getLast?_cons_cons,
          getLast?_cons_ne_nil hne, getLast?_fixDotSpacing (r :: rs),
          List.getLast?_cons_cons, List.getLast?_cons_cons]
    · rw [if_neg hc]
      have hne := fixDotSpacing_ne_nil (c₂ :: rest) (by simp)
      rw [getLast?_cons_ne_nil hne, getLast?_fixDotSpacing (c₂ :: rest),
        List.getLast?_cons_cons]

theorem getLast?_fixNumberSuffix : ∀ u : List Char,
    (fixNumberSuffix u).getLast? = u.getLast? := by
  intro u
  match u with
  | [] => rfl
  | [c] => rfl
  | [c₁, c₂] => rfl
  | c₁ :: c₂ :: c₃ :: rest =>
    rw [fixNumberSuffix]
    by_cases hc : (c₁.isDigit && c₂ == ' ' && c₃.isLower) = true
    · rw [if_pos hc]
      cases rest with
      | nil => rfl
      | cons r rs =>
        have hne := fixNumberSuffix_ne_nil (r :: rs) (by simp)
        rw [List.getLast?_cons_cons, List.getLast?_cons_cons, List.getLast?_cons_cons,
          getLast?_cons_ne_nil hne, getLast?_fixNumberSuffix (r :: rs),
          List.getLast?_cons_cons]
    · rw [if_neg hc]
      have hne := fixNumberSuffix_ne_nil (c₂ :: c₃ :: rest) (by simp)
      rw [getLast?_cons_ne_nil hne, getLast?_fixNumberSuffix (c₂ :: c₃ :: rest),
        List.getLast?_cons_cons, List.getLast?_cons_cons, List.getLast?_cons_cons]

theorem fixDotSpacing_id (u : List Char) (h : hasDotPairB u = false) :
    fixDotSpacing u = u := by
  match u with
  | [] => rfl
  | [c] => rfl
  | c₁ :: c₂ :: rest =>
    have h' : ((c₁ == '.' && dotClass c₂) || hasDotPairB (c₂ :: rest)) = false := h
    rw [Bool.or_eq_false_iff] at h'
    rw [fixDotSpacing, if_neg (by rw [h'.1]; exact Bool.false_ne_true),
      fixDotSpacing_id (c₂ :: rest) h'.2]

theorem hasDotPairB_fixDotSpacing (u : List Char) :
    hasDotPairB (fixDotSpacing u) = false := by
  match u with
  | [] => rfl
  | [c] => rfl
  | c₁ :: c₂ :: rest =>
    rw [fixDotSpacing]
    by_cases hc : (c₁ == '.' && dotClass c₂) = true
    · rw [if_pos hc]
      have hc₂ : dotClass c₂ = true := ((Bool.and_eq_true _ _).mp hc).2
      have hne : (c₂ == '.') = false := by
        cases hb : c₂ == '.' with
        | false => rfl
        | true => rw [beq_iff_eq.mp hb] at hc₂; exact absurd hc₂ (by decide)
      rw [hasDotPairB_cons, hasDotPairB_cons, hasDotPairB_cons,
        hasDotPairB_fixDotSpacing rest]
      cases hh : (fixDotSpacing rest).head? with
      | none =>
        simp [bndDot, hne]
        decide
      | some d =>
        simp [bndDot, hne]
        decide
    · rw [if_neg hc]
      have hcf : (c₁ == '.' && dotClass c₂) = false := by
        cases hb : (c₁ == '.' && dotClass c₂) with
        | false => rfl
        | true => exact absurd hb hc
      rw [hasDotPairB_cons, fixDotSpacing_head? (c₂ :: rest),
        hasDotPairB_fixDotSpacing (c₂ :: rest), List.head?_cons]
      show (bndDot (some c₁) (some c₂) || false) = false
      rw [Bool.or_false]
      exact hcf

theorem hasDotPairB_fixNumberSuffix (u : List Char) (h : hasDotPairB u = false) :
    hasDotPairB (fixNumberSuffix u) = false := by
  match u with
  | [] => rfl
  | [c] => rfl
  | [c₁, c₂] => exact h
  | c₁ :: c₂ :: c₃ :: rest =>
    have h' : (bndDot (some c₁) (some c₂) || hasDotPairB (c₂ :: c₃ :: rest)) = false := by
      have h₀ := h
      rw [hasDotPairB_cons, List.head?_cons] at h₀
      exact h₀
    rw [Bool.or_eq_false_iff] at h'
    rw [fixNumberSuffix]
    by_cases hc : (c₁.isDigit && c₂ == ' ' && c₃.isLower) = true
    · rw [if_pos hc]
      have hd : c₁.isDigit = true :=
        ((Bool.and_eq_true _ _).mp ((Bool.and_eq_true _ _).mp hc).1).1
      have hlo : c₃.isLower = true := ((Bool.and_eq_true _ _).mp hc).2
      have hrest : hasDotPairB rest = false :=
        hasDotPairB_tail (hasDotPairB_tail h'.2)
      have h₁ : (c₁ == '.') = false := by
        cases hb : c₁ == '.' with
        | false => rfl
        | true => rw [beq_iff_eq.mp hb] at hd; exact absurd hd (by decide)
      have h₃ : (c₃ == '.') = false := by
        cases hb : c₃ == '.' with
        | false => rfl
        | true => rw [beq_iff_eq.mp hb] at hlo; exact absurd hlo (by decide)
      rw [hasDotPairB_cons, hasDotPairB_cons, fixNumberSuffix_head? rest,
        hasDotPairB_fixNumberSuffix rest hrest]
      cases hh : rest.head? with
      | none => simp [bndDot, h₁, h₃]
      | some d => simp [bndDot, h₁, h₃]
    · rw [if_neg hc]
      rw [hasDotPairB_cons, fixNumberSuffix_head? (c₂ :: c₃ :: rest),
        hasDotPairB_fixNumberSuffix (c₂ :: c₃ :: rest) h'.2, List.head?_cons]
      rw [Bool.or_false]
      exact h'.1

/-- Replacing `k` by `v` cannot create a dot pair, provided `v` has none
internally, `v` can only end in a period if `k` does, and `v` can only start
with a `dotClass` character if `k` does. -/
theorem hasDotPairB_pyReplaceFuel (k v : List Char) (hk : k ≠ []) (hv : v ≠ [])
    (P1 : hasDotPairB v = false)
    (P2 : v.getLast? = some '.' → k.getLast? = some '.')
    (P3 : ∀ q, v.head? = some q → dotClass q = true →
      ∃ r, k.head? = some r ∧ dotClass r = true) :
    ∀ fuel s, s.length ≤ fuel → hasDotPairB s = false →
      hasDotPairB (pyReplaceFuel k v fuel s) = false := by
  intro fuel
  induction fuel with
  | zero => intro s _ hs; exact hs
  | succ n ih =>
    intro s hlen hs
    match s with
    | [] => exact hs
    | c :: rest =>
      rw [pyReplaceFuel]
      by_cases hp : k.isPrefixOf (c :: rest) = true
      · rw [if_pos hp]
        have hpre : k <+: c :: rest := List.isPrefixOf_iff_prefix.mp hp
        obtain ⟨D, hsD⟩ := hpre
        have hdrop : (c :: rest).drop k.length = D := by
          rw [← hsD, List.drop_left]
        rw [hdrop]
        have hk1 : 1 ≤ k.length := by
          cases k with
          | nil => exact absurd rfl hk
          | cons a b => simp
        have hlenD : D.length ≤ n := by
          have hlkd : k.length + D.length = rest.length + 1 := by
            have := congrArg List.length hsD
            simpa [List.length_append] using this
          have hlr : rest.length + 1 ≤ n + 1 := by
            simpa using hlen
          omega
        rw [← hsD, hasDotPairB_append, Bool.or_eq_false_iff,
          Bool.or_eq_false_iff] at hs
        have hR : hasDotPairB (pyReplaceFuel k v n D) = false := ih D hlenD hs.2
        rw [hasDotPairB_append, P1, hR, Bool.false_or, Bool.or_false]
        cases hvl : v.getLast? with
        | none => rfl
        | some p =>
          by_cases hpdot : p = '.'
          · subst hpdot
            have hkl : k.getLast? = some '.' := P2 hvl
            cases hRh : (pyReplaceFuel k v n D).head? with
            | none => rfl
            | some q =>
              show (('.' == '.') && dotClass q) = false
              by_cases hq : dotClass q = true
              · exfalso
                cases D with
                | nil =>
                  rw [pyReplaceFuel_nil] at hRh
                  exact Option.noConfusion hRh
                | cons d ds =>
                  rcases head?_pyReplaceFuel k v hk hv n (d :: ds) with hcase | hcase
                  · rw [hRh, List.head?_cons] at hcase
                    have hqd : q = d := Option.some_inj.mp hcase
                    apply absurd hs.1.2
                    rw [hkl, List.head?_cons]
                    show bndDot (some '.') (some d) ≠ false
                    simp [bndDot, ← hqd, hq]
                  · obtain ⟨hrv, hdk⟩ := hcase
                    rw [hRh] at hrv
                    obtain ⟨r, hkr, hdr⟩ := P3 q hrv.symm hq
                    rw [List.head?_cons, hkr] at hdk
                    have hdrr : d = r := Option.some_inj.mp hdk
                    apply absurd hs.1.2
                    rw [hkl, List.head?_cons]
                    show bndDot (some '.') (some d) ≠ false
                    simp [bndDot, hdrr, hdr]
              · have hqf : dotClass q = false := by
                  cases hb : dotClass q with
                  | false => rfl
                  | true => exact absurd hb hq
                rw [hqf, Bool.and_false]
          · have hpf : (p == '.') = false := by
              cases hb : p == '.' with
              | false => rfl
              | true => exact absurd (beq_iff_eq.mp hb) hpdot
            cases hRh : (pyReplaceFuel k v n D).head? with
            | none => rfl
            | some q =>
              show ((p == '.') && dotClass q) = false
              rw [hpf, Bool.false_and]
      · rw [if_neg hp]
        have hrest : hasDotPairB rest = false := hasDotPairB_tail hs
        have hlr : rest.length ≤ n := by
          simpa using hlen
        have hR : hasDotPairB (pyReplaceFuel k v n rest) = false := ih rest hlr hrest
        rw [hasDotPairB_cons, hR, Bool.or_false]
        cases hRh : (pyReplaceFuel k v n rest).head? with
        | none => rfl
        | some q =>
          show ((c == '.') && dotClass q) = false
          by_cases hcq : ((c == '.') && dotClass q) = true
          · exfalso
            cases rest with
            | nil =>
              rw [pyReplaceFuel_nil] at hRh
              exact Option.noConfusion hRh
            | cons d ds =>
              have h₀ := hs
              rw [hasDotPairB_cons, List.head?_cons, Bool.or_eq_false_iff] at h₀
              have hw : bndDot (some c) (some d) = false := h₀.1
              rcases head?_pyReplaceFuel k v hk hv n (d :: ds) with hcase | hcase
              · rw [hRh, List.head?_cons] at hcase
                have hqd : q = d := Option.some_inj.mp hcase
                have hbd : bndDot (some c) (some d) = true := by
                  show ((c == '.') && dotClass d) = true
                  rw [← hqd]
                  exact hcq
                rw [hbd] at hw
                exact Bool.noConfusion hw
              · obtain ⟨hrv, hdk⟩ := hcase
                rw [hRh] at hrv
                have hq : dotClass q = true := ((Bool.and_eq_true _ _).mp hcq).2
                have hcdot : (c == '.') = true := ((Bool.and_eq_true _ _).mp hcq).1
                obtain ⟨r, hkr, hdr⟩ := P3 q hrv.symm hq
                rw [List.head?_cons, hkr] at hdk
                have hdrr : d = r := Option.some_inj.mp hdk
                apply absurd hw
                show bndDot (some c) (some d) ≠ false
                simp [bndDot, hcdot, hdrr, hdr]
          · cases hb : ((c == '.') && dotClass q) with
            | false => rfl
            | true => exact absurd hb hcq

theorem hasDotPairB_pyReplace (k v s : List Char) (hk : k ≠ []) (hv : v ≠ [])
    (P1 : hasDotPairB v = false)
    (P2 : v.getLast? = some '.' → k.getLast? = some '.')
    (P3 : ∀ q, v.head? = some q → dotClass q = true →
      ∃ r, k.head? = some r ∧ dotClass r = true)
    (hs : hasDotPairB s = false) : hasDotPairB (pyReplace s k v) = false :=
  hasDotPairB_pyReplaceFuel k v hk hv P1 P2 P3 s.length s (Nat.le_refl _) hs

/-- Absence of the pattern of the `cleanup_text` regex `[0-9] [a-z]`: no
digit followed by a space followed by a lowercase letter occurs. -/
def NoTriple (u : List Char) : Prop :=
  ∀ d l : Char, d.isDigit = true → l.isLower = true → ¬ [d, ' ', l] <:+: u

theorem not_digit_and_lower (c : Char) (h1 : c.isDigit = true)
    (h2 : c.isLower = true) : False := by
  simp [Char.isDigit, Char.isLower] at h1 h2
  exact absurd (UInt32.le_trans h2.1 h1.2) (by decide)

theorem prefix_singleton_head {x : Char} {w : List Char} (h : [x] <+: w) :
    w.head? = some x := by
  cases w with
  | nil => exact absurd (List.prefix_nil.mp h) (by simp)
  | cons a l =>
    rw [List.cons_prefix_cons] at h
    rw [h.1, List.head?_cons]

theorem head_prefix_singleton {x : Char} {w : List Char} (h : w.head? = some x) :
    [x] <+: w := by
  cases w with
  | nil => exact Option.noConfusion h
  | cons a l =>
    rw [List.head?_cons] at h
    rw [List.cons_prefix_cons]
    exact ⟨(Option.some_inj.mp h).symm, List.nil_prefix⟩

theorem noTriple_of_short {u : List Char} (h : u.length ≤ 2) : NoTriple u := by
  intro d l _ _ hinf
  have := hinf.length_le
  simp at this
  omega

theorem noTriple_tail {c : Char} {w : List Char} (h : NoTriple (c :: w)) :
    NoTriple w := by
  intro d l hd hl hinf
  exact h d l hd hl (hinf.trans (List.suffix_cons c w).isInfix)

theorem fixNumberSuffix_id (u : List Char) (h : NoTriple u) :
    fixNumberSuffix u = u := by
  match u with
  | [] => rfl
  | [c] => rfl
  | [c₁, c₂] => rfl
  | c₁ :: c₂ :: c₃ :: rest =>
    rw [fixNumberSuffix]
    by_cases hc : (c₁.isDigit && c₂ == ' ' && c₃.isLower) = true
    · exfalso
      have hd : c₁.isDigit = true :=
        ((Bool.and_eq_true _ _).mp ((Bool.and_eq_true _ _).mp hc).1).1
      have hsp : c₂ = ' ' :=
        beq_iff_eq.mp ((Bool.and_eq_true _ _).mp ((Bool.and_eq_true _ _).mp hc).1).2
      have hlo : c₃.isLower = true := ((Bool.and_eq_true _ _).mp hc).2
      refine h c₁ c₃ hd hlo (List.infix_cons_iff.mpr (Or.inl ?_))
      rw [List.cons_prefix_cons]
      refine ⟨rfl, ?_⟩
      rw [hsp, List.cons_prefix_cons]
      refine ⟨rfl, ?_⟩
      rw [List.cons_prefix_cons]
      exact ⟨rfl, List.nil_prefix⟩
    · rw [if_neg hc]
      rw [fixNumberSuffix_id (c₂ :: c₃ :: rest) (noTriple_tail h)]

theorem noTriple_fixNumberSuffix (u : List Char) :
    NoTriple (fixNumberSuffix u) := by
  match u with
  | [] => exact noTriple_of_short (by simp [fixNumberSuffix])
  | [c] => exact noTriple_of_short (by simp [fixNumberSuffix])
  | [c₁, c₂] => exact noTriple_of_short (by simp [fixNumberSuffix])
  | c₁ :: c₂ :: c₃ :: rest =>
    rw [fixNumberSuffix]
    by_cases hc : (c₁.isDigit && c₂ == ' ' && c₃.isLower) = true
    · rw [if_pos hc]
      have hlo : c₃.isLower = true := ((Bool.and_eq_true _ _).mp hc).2
      intro d l hd hl hinf
      rcases List.infix_cons_iff.mp hinf with hpre | hinf₂
      · rw [List.cons_prefix_cons] at hpre
        rw [List.cons_prefix_cons] at hpre
        have hsp : (' ' : Char) = c₃ := hpre.2.1
        rw [← hsp] at hlo
        exact absurd hlo (by decide)
      · rcases List.infix_cons_iff.mp hinf₂ with hpre | hinf₃
        · rw [List.cons_prefix_cons] at hpre
          exact not_digit_and_lower c₃ (hpre.1 ▸ hd) hlo
        · exact noTriple_fixNumberSuffix rest d l hd hl hinf₃
    · rw [if_neg hc]
      intro d l hd hl hinf
      rcases List.infix_cons_iff.mp hinf with hpre | hinf₂
      · rw [List.cons_prefix_cons] at hpre
        obtain ⟨hdc, hpre⟩ := hpre
        rw [hdc] at hd
        have hhead : (fixNumberSuffix (c₂ :: c₃ :: rest)).head? = some ' ' := by
          cases hw : fixNumberSuffix (c₂ :: c₃ :: rest) with
          | nil =>
            rw [hw] at hpre
            exact absurd (List.prefix_nil.mp hpre) (by simp)
          | cons a w₂ =>
            rw [hw, List.cons_prefix_cons] at hpre
            rw [List.head?_cons, ← hpre.1]
        rw [fixNumberSuffix_head?, List.head?_cons] at hhead
        have hc₂ : c₂ = ' ' := Option.some_inj.mp hhead
        have hfns : fixNumberSuffix (c₂ :: c₃ :: rest) = c₂ :: fixNumberSuffix (c₃ :: rest) :=
          fixNumberSuffix_cons_of_not_digit (by rw [hc₂]; decide) _
        rw [hfns, List.cons_prefix_cons] at hpre
        have hl3 : (fixNumberSuffix (c₃ :: rest)).head? = some l :=
          prefix_singleton_head hpre.2
        rw [fixNumberSuffix_head?, List.head?_cons] at hl3
        have hc₃ : c₃ = l := Option.some_inj.mp hl3
        apply hc
        rw [Bool.and_eq_true, Bool.and_eq_true]
        refine ⟨⟨hd, ?_⟩, ?_⟩
        · rw [hc₂]
          decide
        · rw [hc₃]
          exact hl
      · exact noTriple_fixNumberSuffix (c₂ :: c₃ :: rest) d l hd hl hinf₂

/-- The straddling side conditions under which replacing `k` by `v`
preserves the absence of `a` (decidable for concrete strings). -/
def PresCond (a k v : List Char) : Prop :=
  (¬ a <:+: v) ∧
  ∀ i, i < a.length → 0 < i →
    (a.drop i <+: v → a.drop i <+: k) ∧
    (v <+: a.drop i → a.drop i = v) ∧
    (a.take i <:+ v → a.take i <:+ k)

/-- The side conditions under which `s.replace(a, v)` leaves no occurrence
of `a` (decidable for concrete strings). -/
def RemCond (a v : List Char) : Prop :=
  (¬ a <:+: v) ∧
  ∀ i, i < a.length → 0 < i →
    (a.drop i <+: v → a.drop i <+: a) ∧
    (v <+: a.drop i → a.drop i = v) ∧
    ¬ a.take i <:+ v

instance (a k v : List Char) : Decidable (PresCond a k v) := by
  unfold PresCond
  exact inferInstance

instance (a v : List Char) : Decidable (RemCond a v) := by
  unfold RemCond
  exact inferInstance

theorem applyReplacements_cons (p : List Char × List Char)
    (rest : List (List Char × List Char)) (s : List Char) :
    applyReplacements (p :: rest) s = applyReplacements rest (pyReplace s p.1 p.2) :=
  rfl

theorem not_infix_pyReplace {a k v s : List Char} (hk : k ≠ [])
    (hc : PresCond a k v) (h : ¬ a <:+: s) : ¬ a <:+: pyReplace s k v :=
  not_infix_pyReplaceFuel a k v hk hc.1
    (fun i h0 hl => (hc.2 i hl h0).1)
    (fun i h0 hl => (hc.2 i hl h0).2.1)
    (fun i h0 hl => (hc.2 i hl h0).2.2)
    s.length s (Nat.le_refl _) h

theorem not_infix_pyReplace_self {a v : List Char} (s : List Char) (ha : a ≠ [])
    (hc : RemCond a v) : ¬ a <:+: pyReplace s a v :=
  not_infix_pyReplaceFuel_self a v ha hc.1
    (fun i h0 hl => (hc.2 i hl h0).1)
    (fun i h0 hl => (hc.2 i hl h0).2.1)
    (fun i h0 hl => (hc.2 i hl h0).2.2)
    s.length s (Nat.le_refl _)

theorem not_infix_applyReplacements (a : List Char)
    (pairs : List (List Char × List Char))
    (hps : ∀ kv ∈ pairs, kv.1 ≠ [] ∧ PresCond a kv.1 kv.2) :
    ∀ s, ¬ a <:+: s → ¬ a <:+: applyReplacements pairs s := by
  induction pairs with
  | nil => intro s h; exact h
  | cons p rest ih =>
    intro s h
    rw [applyReplacements, List.foldl_cons]
    exact ih (fun kv hkv => hps kv (List.mem_cons_of_mem p hkv)) _
      (not_infix_pyReplace (hps p (List.mem_cons_self p rest)).1
        (hps p (List.mem_cons_self p rest)).2 h)

/-- After applying the whole replacement table, no pattern of the table
occurs in the result, provided each pair satisfies its removal conditions
and each earlier pattern the preservation conditions of every later
pair. -/
theorem fold_removes (pairs : List (List Char × List Char))
    (hrem : ∀ kv ∈ pairs, kv.1 ≠ [] ∧ RemCond kv.1 kv.2)
    (hpw : List.Pairwise (fun x y => PresCond x.1 y.1 y.2) pairs) :
    ∀ s, ∀ kv ∈ pairs, ¬ kv.1 <:+: applyReplacements pairs s := by
  induction pairs with
  | nil => intro s kv h; cases h
  | cons p rest ih =>
    intro s kv hm
    rw [applyReplacements, List.foldl_cons]
    rcases List.mem_cons.mp hm with rfl | hm2
    · refine not_infix_applyReplacements kv.1 rest ?_ _ ?_
      · intro q hq
        exact ⟨(hrem q (List.mem_cons_of_mem kv hq)).1,
          (List.pairwise_cons.mp hpw).1 q hq⟩
      · exact not_infix_pyReplace_self s (hrem kv (List.mem_cons_self kv rest)).1
          (hrem kv (List.mem_cons_self kv rest)).2
    · exact ih (fun q hq => hrem q (List.mem_cons_of_mem p hq))
        (List.pairwise_cons.mp hpw).2 _ kv hm2

theorem mem_applyReplacements (pairs : List (List Char × List Char)) {c : Char} :
    ∀ s, c ∈ applyReplacements pairs s → c ∈ s ∨ ∃ kv ∈ pairs, c ∈ kv.2 := by
  induction pairs with
  | nil => intro s h; exact Or.inl h
  | cons p rest ih =>
    intro s h
    rw [applyReplacements, List.foldl_cons] at h
    rcases ih _ h with h₂ | ⟨kv, hkv, hc⟩
    · rcases mem_pyReplaceFuel p.1 p.2 _ _ h₂ with h₃ | h₃
      · exact Or.inl h₃
      · exact Or.inr ⟨p, List.mem_cons_self p rest, h₃⟩
    · exact Or.inr ⟨kv, List.mem_cons_of_mem p hkv, hc⟩

theorem ne_nil_applyReplacements (pairs : List (List Char × List Char))
    (hv : ∀ kv ∈ pairs, kv.2 ≠ []) :
    ∀ s, s ≠ [] → applyReplacements pairs s ≠ [] := by
  induction pairs with
  | nil => intro s h; exact h
  | cons p rest ih =>
    intro s h
    rw [applyReplacements, List.foldl_cons]
    exact ih (fun kv hkv => hv kv (List.mem_cons_of_mem p hkv)) _
      (pyReplaceFuel_ne_nil p.1 p.2 (hv p (List.mem_cons_self p rest)) _ _ h)

theorem getLast?_applyReplacements (pairs : List (List Char × List Char))
    (hv : ∀ kv ∈ pairs, kv.2 ≠ []) :
    ∀ s, (applyReplacements pairs s).getLast? = s.getLast? ∨
      ∃ kv ∈ pairs, (applyReplacements pairs s).getLast? = kv.2.getLast? := by
  induction pairs with
  | nil => intro s; exact Or.inl rfl
  | cons p rest ih =>
    intro s
    rw [applyReplacements_cons]
    rcases ih (fun kv hkv => hv kv (List.mem_cons_of_mem p hkv))
        (pyReplace s p.1 p.2) with h | ⟨kv, hkv, h⟩
    · rw [h]
      rcases getLast?_pyReplaceFuel p.1 p.2 (hv p (List.mem_cons_self p rest))
          s.length s with h₂ | h₂
      · exact Or.inl h₂
      · exact Or.inr ⟨p, List.mem_cons_self p rest, h₂⟩
    · exact Or.inr ⟨kv, List.mem_cons_of_mem p hkv, h⟩

theorem applyReplacements_id (pairs : List (List Char × List Char)) :
    ∀ s, (∀ kv ∈ pairs, ¬ kv.1 <:+: s) → applyReplacements pairs s = s := by
  induction pairs with
  | nil => intro s _; rfl
  | cons p rest ih =>
    intro s h
    rw [applyReplacements, List.foldl_cons]
    rw [pyReplace_id s p.1 p.2 (h p (List.mem_cons_self p rest))]
    exact ih s (fun kv hkv => h kv (List.mem_cons_of_mem p hkv))

/-- Decidable side conditions under which replacing `k` by `v` preserves
`hasDotPairB = false`. -/
def DotPresCond (k v : List Char) : Prop :=
  hasDotPairB v = false ∧
  (v.getLast? = some '.' → k.getLast? = some '.') ∧
  (v.head?.any dotClass = true → k.head?.any dotClass = true)

instance (k v : List Char) : Decidable (DotPresCond k v) := by
  unfold DotPresCond
  exact inferInstance

theorem hasDotPairB_applyReplacements (pairs : List (List Char × List Char))
    (hc : ∀ kv ∈ pairs, kv.1 ≠ [] ∧ kv.2 ≠ [] ∧ DotPresCond kv.1 kv.2) :
    ∀ s, hasDotPairB s = false → hasDotPairB (applyReplacements pairs s) = false := by
  induction pairs with
  | nil => intro s h; exact h
  | cons p rest ih =>
    intro s h
    rw [applyReplacements_cons]
    refine ih (fun kv hkv => hc kv (List.mem_cons_of_mem p hkv)) _ ?_
    obtain ⟨hk, hv, hd⟩ := hc p (List.mem_cons_self p rest)
    refine hasDotPairB_pyReplace p.1 p.2 s hk hv hd.1 hd.2.1 ?_ h
    intro q hq hdq
    have hany : p.2.head?.any dotClass = true := by
      rw [hq]
      exact hdq
    have h2 := hd.2.2 hany
    cases hk2 : p.1.head? with
    | none =>
      rw [hk2] at h2
      exact Bool.noConfusion h2
    | some r =>
      rw [hk2] at h2
      exact ⟨r, rfl, h2⟩

/-- Decidable side conditions under which replacing `k` by `v` preserves the
absence of digit-space-lowercase triples. -/
def triplePresB (k v : List Char) : Bool :=
  !v.isEmpty && v.all (fun c => !c.isDigit) &&
  (match v.head? with
   | some q => !(q == ' ') && (!q.isLower || (k.head? == some q))
   | none => true)

theorem triple_presCond (k v : List Char) (h : triplePresB k v = true)
    (d l : Char) (hd : d.isDigit = true) (hl : l.isLower = true) :
    PresCond [d, ' ', l] k v := by
  rw [triplePresB, Bool.and_eq_true, Bool.and_eq_true] at h
  obtain ⟨⟨hve, hdig⟩, hhead⟩ := h
  have hv : v ≠ [] := by
    cases v with
    | nil => exact absurd hve (by decide)
    | cons a w => simp
  have hnodig : ∀ c ∈ v, c.isDigit = false := by
    intro c hcv
    have := (List.all_eq_true.mp hdig) c hcv
    cases hb : c.isDigit with
    | false => rfl
    | true => rw [hb] at this; exact Bool.noConfusion this
  constructor
  · intro hinf
    have : d ∈ v := hinf.sublist.subset (List.mem_cons_self _ _)
    rw [hnodig d this] at hd
    exact Bool.noConfusion hd
  · intro i hi hi0
    obtain ⟨q, vt, hqv⟩ := List.exists_cons_of_ne_nil hv
    have hq1 : (!(q == ' ') && (!q.isLower || (k.head? == some q))) = true := by
      rw [hqv] at hhead
      exact hhead
    rw [Bool.and_eq_true] at hq1
    have hqsp : q ≠ ' ' := by
      intro hqe
      rw [hqe] at hq1
      exact absurd hq1.1 (by decide)
    have hi2 : i = 1 ∨ i = 2 := by
      have h3 : i < 3 := by simpa using hi
      omega
    rcases hi2 with rfl | rfl
    · simp only [List.drop_succ_cons, List.drop_zero, List.take_succ_cons,
        List.take_zero]
      refine ⟨?_, ?_, ?_⟩
      · intro hpre
        exfalso
        rw [hqv, List.cons_prefix_cons] at hpre
        exact hqsp hpre.1.symm
      · intro hpre
        exfalso
        rw [hqv, List.cons_prefix_cons] at hpre
        exact hqsp hpre.1
      · intro hsuf
        exfalso
        have : d ∈ v := hsuf.sublist.subset (List.mem_cons_self _ _)
        rw [hnodig d this] at hd
        exact Bool.noConfusion hd
    · simp only [List.drop_succ_cons, List.drop_zero, List.take_succ_cons,
        List.take_zero]
      refine ⟨?_, ?_, ?_⟩
      · intro hpre
        have hql : q = l := by
          have := prefix_singleton_head hpre
          rw [hqv, List.head?_cons] at this
          exact Option.some_inj.mp this
        have hklow : (!q.isLower || (k.head? == some q)) = true := hq1.2
        rw [hql, hl] at hklow
        have hkh : (k.head? == some l) = true := by
          cases hb : k.head? == some l with
          | true => rfl
          | false =>
            rw [hb] at hklow
            exact Bool.noConfusion hklow
        exact head_prefix_singleton (beq_iff_eq.mp hkh)
      · intro hpre
        rw [hqv, List.cons_prefix_cons] at hpre
        obtain ⟨hql, hvt⟩ := hpre
        have : vt = [] := List.prefix_nil.mp hvt
        rw [hqv, hql, this]
      · intro hsuf
        exfalso
        have : d ∈ v := hsuf.sublist.subset (List.mem_cons_self _ _)
        rw [hnodig d this] at hd
        exact Bool.noConfusion hd

theorem noTriple_applyReplacements (pairs : List (List Char × List Char))
    (hc : ∀ kv ∈ pairs, kv.1 ≠ [] ∧ triplePresB kv.1 kv.2 = true) :
    ∀ s, NoTriple s → NoTriple (applyReplacements pairs s) := by
  intro s h d l hd hl
  exact not_infix_applyReplacements [d, ' ', l] pairs
    (fun kv hkv => ⟨(hc kv hkv).1,
      triple_presCond kv.1 kv.2 (hc kv hkv).2 d l hd hl⟩) s (h d l hd hl)

theorem singleton_infix_iff_mem {c : Char} {u : List Char} :
    [c] <:+: u ↔ c ∈ u := by
  constructor
  · intro h
    exact h.sublist.subset (List.mem_cons_self _ _)
  · intro h
    obtain ⟨p, q, rfl⟩ := List.append_of_mem h
    exact ⟨p, q, by simp⟩

theorem fixTrailingMark_ne_nil (s : List Char) (h : s ≠ []) :
    fixTrailingMark s ≠ [] := by
  rw [fixTrailingMark]
  cases hl : s.getLast? with
  | none => exact h
  | some c =>
    show (if (c == ':' || c == '=') = true then s.dropLast ++ ['-'] else s) ≠ []
    by_cases hc : (c == ':' || c == '=') = true
    · rw [if_pos hc]
      simp
    · rw [if_neg hc]
      exact h

theorem fixTrailingMark_getLast? (s : List Char) :
    (fixTrailingMark s).getLast? ≠ some ':' ∧
      (fixTrailingMark s).getLast? ≠ some '=' := by
  rw [fixTrailingMark]
  cases hl : s.getLast? with
  | none =>
    show s.getLast? ≠ some ':' ∧ s.getLast? ≠ some '='
    rw [hl]
    exact ⟨by simp, by simp⟩
  | some c =>
    show (if (c == ':' || c == '=') = true then s.dropLast ++ ['-'] else s).getLast?
        ≠ some ':' ∧
      (if (c == ':' || c == '=') = true then s.dropLast ++ ['-'] else s).getLast?
        ≠ some '='
    by_cases hc : (c == ':' || c == '=') = true
    · rw [if_pos hc]
      rw [List.getLast?_append_of_ne_nil _ (by simp : (['-'] : List Char) ≠ [])]
      exact ⟨by decide, by decide⟩
    · rw [if_neg hc]
      show s.getLast? ≠ some ':' ∧ s.getLast? ≠ some '='
      rw [hl]
      have h1 : (c == ':') = false := by
        cases hb : c == ':' with
        | false => rfl
        | true => exact absurd (by rw [hb]; rfl) hc
      have h2 : (c == '=') = false := by
        cases hb : c == '=' with
        | false => rfl
        | true => exact absurd (by rw [hb]; simp) hc
      constructor
      · intro he
        have := Option.some_inj.mp he
        rw [this] at h1
        exact absurd h1 (by decide)
      · intro he
        have := Option.some_inj.mp he
        rw [this] at h2
        exact absurd h2 (by decide)

theorem fixTrailingMark_id (s : List Char)
    (h1 : s.getLast? ≠ some ':') (h2 : s.getLast? ≠ some '=') :
    fixTrailingMark s = s := by
  rw [fixTrailingMark]
  cases hl : s.getLast? with
  | none => rfl
  | some c =>
    have hc : (c == ':' || c == '=') = false := by
      cases hb1 : c == ':' with
      | true =>
        exact absurd (by rw [hl, beq_iff_eq.mp hb1] : s.getLast? = some ':') h1
      | false =>
        cases hb2 : c == '=' with
        | true =>
          exact absurd (by rw [hl, beq_iff_eq.mp hb2] : s.getLast? = some '=') h2
        | false => rfl
    show (if (c == ':' || c == '=') = true then s.dropLast ++ ['-'] else s) = s
    rw [if_neg (by rw [hc]; exact Bool.false_ne_true)]

/-- The string produced by `cleanup_text` is non-empty, does not end in a
trailing mark, has none of the three archaic glyphs, no period directly
followed by a `dotClass` character, no digit-space-lowercase triple, and no
occurrence of a `REPLACEMENTS` pattern. -/
theorem cleanup_text_output_clean (s t : List Char) (h : cleanup_text s = some t) :
    t ≠ [] ∧ t.getLast? ≠ some ':' ∧ t.getLast? ≠ some '=' ∧
    'ſ' ∉ t ∧ 'ß' ∉ t ∧ '⸗' ∉ t ∧
    hasDotPairB t = false ∧ NoTriple t ∧
    (∀ kv ∈ REPLACEMENTS, ¬ kv.1 <:+: t) := by
  rw [cleanup_text] at h
  by_cases hs : s.isEmpty = true
  · rw [if_pos hs] at h
    exact Option.noConfusion h
  · rw [if_neg hs] at h
    have hsne : s ≠ [] := fun he => hs (by rw [he]; rfl)
    have ht : applyReplacements REPLACEMENTS (fixNumberSuffix (fixDotSpacing
        (pyReplace (pyReplace (pyReplace (fixTrailingMark s) ['ſ'] ['s'])
          ['ß'] ['s', 's']) ['⸗'] ['-']))) = t := Option.some_inj.mp h
    subst ht
    have hA : fixTrailingMark s ≠ [] := fixTrailingMark_ne_nil s hsne
    have hB : pyReplace (fixTrailingMark s) ['ſ'] ['s'] ≠ [] :=
      pyReplaceFuel_ne_nil _ _ (by simp) _ _ hA
    have hC : pyReplace (pyReplace (fixTrailingMark s) ['ſ'] ['s']) ['ß'] ['s', 's'] ≠ [] :=
      pyReplaceFuel_ne_nil _ _ (by simp) _ _ hB
    have hD : pyReplace (pyReplace (pyReplace (fixTrailingMark s) ['ſ'] ['s'])
        ['ß'] ['s', 's']) ['⸗'] ['-'] ≠ [] :=
      pyReplaceFuel_ne_nil _ _ (by simp) _ _ hC
    have hE := fixDotSpacing_ne_nil _ hD
    have hF := fixNumberSuffix_ne_nil _ hE
    have hgA := fixTrailingMark_getLast? s
    have hstep : ∀ u k v : List Char, v ≠ [] →
        v.getLast? ≠ some ':' → v.getLast? ≠ some '=' →
        u.getLast? ≠ some ':' → u.getLast? ≠ some '=' →
        (pyReplace u k v).getLast? ≠ some ':' ∧ (pyReplace u k v).getLast? ≠ some '=' := by
      intro u k v hvn hv1 hv2 hu1 hu2
      rcases getLast?_pyReplaceFuel k v hvn u.length u with hg | hg
      · rw [pyReplace, hg]; exact ⟨hu1, hu2⟩
      · rw [pyReplace, hg]; exact ⟨hv1, hv2⟩
    have hgB := hstep _ ['ſ'] ['s'] (by simp) (by decide) (by decide) hgA.1 hgA.2
    have hgC := hstep _ ['ß'] ['s', 's'] (by simp) (by decide) (by decide) hgB.1 hgB.2
    have hgD := hstep _ ['⸗'] ['-'] (by simp) (by decide) (by decide) hgC.1 hgC.2
    have hgE : (fixDotSpacing (pyReplace (pyReplace (pyReplace (fixTrailingMark s)
        ['ſ'] ['s']) ['ß'] ['s', 's']) ['⸗'] ['-'])).getLast? ≠ some ':' ∧
        (fixDotSpacing (pyReplace (pyReplace (pyReplace (fixTrailingMark s)
        ['ſ'] ['s']) ['ß'] ['s', 's']) ['⸗'] ['-'])).getLast? ≠ some '=' := by
      rw [getLast?_fixDotSpacing]
      exact hgD
    have hgF : (fixNumberSuffix (fixDotSpacing (pyReplace (pyReplace (pyReplace
        (fixTrailingMark s) ['ſ'] ['s']) ['ß'] ['s', 's']) ['⸗'] ['-']))).getLast? ≠ some ':' ∧
        (fixNumberSuffix (fixDotSpacing (pyReplace (pyReplace (pyReplace
        (fixTrailingMark s) ['ſ'] ['s']) ['ß'] ['s', 's']) ['⸗'] ['-']))).getLast? ≠ some '=' := by
      rw [getLast?_fixNumberSuffix]
      exact hgE
    have hmB : 'ſ' ∉ pyReplace (fixTrailingMark s) ['ſ'] ['s'] := fun hm =>
      not_infix_pyReplace_self (fixTrailingMark s) (by simp) (by decide)
        (singleton_infix_iff_mem.mpr hm)
    have hmC : 'ſ' ∉ pyReplace (pyReplace (fixTrailingMark s) ['ſ'] ['s'])
        ['ß'] ['s', 's'] := fun hm => by
      rcases mem_pyReplaceFuel _ _ _ _ hm with h2 | h2
      · exact hmB h2
      · exact absurd h2 (by decide)
    have hmD1 : 'ſ' ∉ pyReplace (pyReplace (pyReplace (fixTrailingMark s)
        ['ſ'] ['s']) ['ß'] ['s', 's']) ['⸗'] ['-'] := fun hm => by
      rcases mem_pyReplaceFuel _ _ _ _ hm with h2 | h2
      · exact hmC h2
      · exact absurd h2 (by decide)
    have hmC2 : 'ß' ∉ pyReplace (pyReplace (fixTrailingMark s) ['ſ'] ['s'])
        ['ß'] ['s', 's'] := fun hm =>
      not_infix_pyReplace_self _ (by simp) (by decide)
        (singleton_infix_iff_mem.mpr hm)
    have hmD2 : 'ß' ∉ pyReplace (pyReplace (pyReplace (fixTrailingMark s)
        ['ſ'] ['s']) ['ß'] ['s', 's']) ['⸗'] ['-'] := fun hm => by
      rcases mem_pyReplaceFuel _ _ _ _ hm with h2 | h2
      · exact hmC2 h2
      · exact absurd h2 (by decide)
    have hmD3 : '⸗' ∉ pyReplace (pyReplace (pyReplace (fixTrailingMark s)
        ['ſ'] ['s']) ['ß'] ['s', 's']) ['⸗'] ['-'] := fun hm =>
      not_infix_pyReplace_self _ (by simp) (by decide)
        (singleton_infix_iff_mem.mpr hm)
    have hmem : ∀ c : Char, c ≠ ' ' →
        c ∉ pyReplace (pyReplace (pyReplace (fixTrailingMark s)
          ['ſ'] ['s']) ['ß'] ['s', 's']) ['⸗'] ['-'] →
        (∀ kv ∈ REPLACEMENTS, c ∉ kv.2) →
        c ∉ applyReplacements REPLACEMENTS (fixNumberSuffix (fixDotSpacing
          (pyReplace (pyReplace (pyReplace (fixTrailingMark s)
            ['ſ'] ['s']) ['ß'] ['s', 's']) ['⸗'] ['-']))) := by
      intro c hsp hD0 hvals hm
      rcases mem_applyReplacements REPLACEMENTS _ hm with h2 | ⟨kv, hkv, h2⟩
      · have h3 := mem_fixNumberSuffix _ h2
        rcases mem_fixDotSpacing _ h3 with h4 | h4
        · exact hD0 h4
        · exact hsp h4
      · exact hvals kv hkv h2
    have hE2 : hasDotPairB (fixDotSpacing (pyReplace (pyReplace (pyReplace
        (fixTrailingMark s) ['ſ'] ['s']) ['ß'] ['s', 's']) ['⸗'] ['-'])) = false :=
      hasDotPairB_fixDotSpacing _
    have hF2 := hasDotPairB_fixNumberSuffix _ hE2
    have hF3 := noTriple_fixNumberSuffix (fixDotSpacing (pyReplace (pyReplace
      (pyReplace (fixTrailingMark s) ['ſ'] ['s']) ['ß'] ['s', 's']) ['⸗'] ['-']))
    refine ⟨ne_nil_applyReplacements REPLACEMENTS (by decide) _ hF, ?_, ?_, ?_, ?_, ?_, ?_, ?_, ?_⟩
    · rcases getLast?_applyReplacements REPLACEMENTS (by decide) (fixNumberSuffix
          (fixDotSpacing (pyReplace (pyReplace (pyReplace (fixTrailingMark s)
            ['ſ'] ['s']) ['ß'] ['s', 's']) ['⸗'] ['-']))) with hg | ⟨kv, hkv, hg⟩
      · rw [hg]; exact hgF.1
      · rw [hg]
        exact ((by decide : ∀ kv ∈ REPLACEMENTS, kv.2.getLast? ≠ some ':' ∧
          kv.2.getLast? ≠ some '=') kv hkv).1
    · rcases getLast?_applyReplacements REPLACEMENTS (by decide) (fixNumberSuffix
          (fixDotSpacing (pyReplace (pyReplace (pyReplace (fixTrailingMark s)
            ['ſ'] ['s']) ['ß'] ['s', 's']) ['⸗'] ['-']))) with hg | ⟨kv, hkv, hg⟩
      · rw [hg]; exact hgF.2
      · rw [hg]
        exact ((by decide : ∀ kv ∈ REPLACEMENTS, kv.2.getLast? ≠ some ':' ∧
          kv.2.getLast? ≠ some '=') kv hkv).2
    · exact hmem 'ſ' (by decide) hmD1
        (fun kv hkv => ((by decide : ∀ kv ∈ REPLACEMENTS, 'ſ' ∉ kv.2 ∧ 'ß' ∉ kv.2 ∧
          '⸗' ∉ kv.2) kv hkv).1)
    · exact hmem 'ß' (by decide) hmD2
        (fun kv hkv => ((by decide : ∀ kv ∈ REPLACEMENTS, 'ſ' ∉ kv.2 ∧ 'ß' ∉ kv.2 ∧
          '⸗' ∉ kv.2) kv hkv).2.1)
    · exact hmem '⸗' (by decide) hmD3
        (fun kv hkv => ((by decide : ∀ kv ∈ REPLACEMENTS, 'ſ' ∉ kv.2 ∧ 'ß' ∉ kv.2 ∧
          '⸗' ∉ kv.2) kv hkv).2.2)
    · exact hasDotPairB_applyReplacements REPLACEMENTS (by decide) _ hF2
    · exact noTriple_applyReplacements REPLACEMENTS (by decide) _ hF3
    · exact fold_removes REPLACEMENTS (by decide) (by decide) _

/-- A string with all the cleanliness properties is a fixed point of
`cleanup_text`. -/
theorem cleanup_text_fixed (t : List Char)
    (p1 : t ≠ []) (p2 : t.getLast? ≠ some ':') (p3 : t.getLast? ≠ some '=')
    (p4 : 'ſ' ∉ t) (p5 : 'ß' ∉ t) (p6 : '⸗' ∉ t)
    (p7 : hasDotPairB t = false) (p8 : NoTriple t)
    (p9 : ∀ kv ∈ REPLACEMENTS, ¬ kv.1 <:+: t) :
    cleanup_text t = some t := by
  rw [cleanup_text, if_neg (by
    intro hc
    exact p1 (List.isEmpty_iff.mp hc))]
  show some (applyReplacements REPLACEMENTS (fixNumberSuffix (fixDotSpacing
    (pyReplace (pyReplace (pyReplace (fixTrailingMark t) ['ſ'] ['s'])
      ['ß'] ['s', 's']) ['⸗'] ['-'])))) = some t
  rw [fixTrailingMark_id t p2 p3,
    pyReplace_id t ['ſ'] ['s'] (fun hinf => p4 (singleton_infix_iff_mem.mp hinf)),
    pyReplace_id t ['ß'] ['s', 's'] (fun hinf => p5 (singleton_infix_iff_mem.mp hinf)),
    pyReplace_id t ['⸗'] ['-'] (fun hinf => p6 (singleton_infix_iff_mem.mp hinf)),
    fixDotSpacing_id t p7, fixNumberSuffix_id t p8,
    applyReplacements_id REPLACEMENTS t p9]

/-- C6: for every non-empty ASCII-only input that does not end in one of
the trailing continuation marks ":" or "=", `cleanup_text` is idempotent:
running it on its own output returns that output unchanged.  (The proof
does not even need the ASCII and trailing-mark hypotheses: one pass of
`cleanup_text` always yields a fixed point of the next pass.) -/
theorem cleanup_text_idempotent (s : List Char) (hne : s ≠ [])
    (hascii : ∀ c ∈ s, c.toNat < 128)
    (h1 : s.getLast? ≠ some ':') (h2 : s.getLast? ≠ some '=') :
    (cleanup_text s).bind cleanup_text = cleanup_text s := by
  cases hct : cleanup_text s with
  | none => rfl
  | some t =>
    obtain ⟨p1, p2, p3, p4, p5, p6, p7, p8, p9⟩ := cleanup_text_output_clean s t hct
    show cleanup_text t = some t
    exact cleanup_text_fixed t p1 p2 p3 p4 p5 p6 p7 p8 p9

theorem cleanup_text_idempotent_witness :
    "Marti, Joh., Schreiner, Postg. 15".data ≠ [] ∧
    (∀ c ∈ "Marti, Joh., Schreiner, Postg. 15".data, c.toNat < 128) ∧
    "Marti, Joh., Schreiner, Postg. 15".data.getLast? ≠ some ':' ∧
    "Marti, Joh., Schreiner, Postg. 15".data.getLast? ≠ some '=' ∧
    (cleanup_text "Marti, Joh., Schreiner, Postg. 15".data).bind cleanup_text
      = cleanup_text "Marti, Joh., Schreiner, Postg. 15".data :=
  ⟨by decide, by decide, by decide, by decide,
    cleanup_text_idempotent "Marti, Joh., Schreiner, Postg. 15".data
      (by decide) (by decide) (by decide) (by decide)⟩

/-- C5: `cleanup_text` maps the two specimen inputs as the spec states:
the long s is replaced by "s", "ß" by "ss" and the diagonal-double-bar
continuation glyph by "-", so that `cleanup_text "ſtraß⸗" = "strass-"`;
and OCR misreads are corrected and the spaced house-number suffix letter
collapsed, so that `cleanup_text "Räfichgaffe 8 b" = "Käfichgasse 8b"`. -/
theorem cleanup_text_specimens :
    cleanup_text "ſtraß⸗".data = some "strass-".data ∧
    cleanup_text "Räfichgaffe 8 b".data = some "Käfichgasse 8b".data := by
  constructor <;> rfl

end Bern
